import Mathlib

/-!
# ScannerReflFix: kernel synthesis, reflected-light estimate and per-pixel correction

A shallow embedding of `src/tiffresults.cpp` and of the correction stages of `main` in
`src/ScannerReflFix.cpp`.

* `float` values are elements of an ordered field `K` (exact arithmetic); the C library
  `sqrt` is a parameter `sqrt : K → K`, instantiated with `Real.sqrt` in the theorems, and
  the C library `pow` a parameter of the 8-bit encoder.
* `uint8` values are `Nat` with an explicit `% 256`.
* `int` values that the program may subtract below zero are `Int`; array extents and loop
  indices, which start at zero and only grow, are `Nat`.  No `int` overflow is modelled.
* An access outside an array, an allocation of negative extent and a division by an exact
  zero have no value in exact arithmetic: the embedding returns `none` there.
-/

namespace ScannerReflFix

/-! ## Loops -/

/-- The loop `for (int i = 0; i < n; i++) s = body(i, s)`, stopping at the first failing
iteration. -/
def forLoop {σ : Type} (n : Nat) (body : Nat → σ → Option σ) (s : σ) : Option σ :=
  match n with
  | 0 => some s
  | k + 1 => (forLoop k body s).bind (body k)

/-! ## ArrayRGB -/

/-- Modelled from the spec: the class `ArrayRGB` of the header `tiffresults.h`, which is not among
the sources.  The spec's PixelPlane is three same-length sequences of samples, one per
channel, row-major, of length rows × cols, with the metadata rows, cols, dpi, the 8/16-bit
origin flag and the gamma exponent. -/
structure ArrayRGB (K : Type) where
  nr : Nat
  nc : Nat
  dpi : Int
  from_16bits : Bool
  gamma : K
  v : Fin 3 → List K

section Generic

variable {K : Type} [LinearOrderedField K]

/-- Modelled from the spec: the constructor `ArrayRGB(rows, cols, dpi, from_16bits, gamma)` of the
missing header: three zero-filled channels of length rows × cols.  A negative extent has no
allocation. -/
def ArrayRGB.create (nr nc dpi : Int) (from_16bits : Bool) (gamma : K) :
    Option (ArrayRGB K) :=
  if 0 ≤ nr ∧ 0 ≤ nc then
    some
      { nr := nr.toNat
        nc := nc.toNat
        dpi := dpi
        from_16bits := from_16bits
        gamma := gamma
        v := fun _ => List.replicate (nr.toNat * nc.toNat) 0 }
  else none

/-- Modelled from the spec: reading `a(r, c, color)`, that is `v[color][r*nc + c]` (the body left
as a comment at the end of `tiffresults.cpp`), defined for `0 ≤ r < nr`, `0 ≤ c < nc` inside
the channel. -/
def ArrayRGB.get (a : ArrayRGB K) (r c : Nat) (color : Fin 3) : Option K :=
  if r < a.nr ∧ c < a.nc then (a.v color)[r * a.nc + c]? else none

/-- Modelled from the spec: the assignment `a(r, c, color) = x` through the same index. -/
def ArrayRGB.set (a : ArrayRGB K) (r c : Nat) (color : Fin 3) (x : K) :
    Option (ArrayRGB K) :=
  if r < a.nr ∧ c < a.nc ∧ r * a.nc + c < (a.v color).length then
    some { a with v := Function.update a.v color ((a.v color).set (r * a.nc + c) x) }
  else none

/-- The method `ArrayRGB::sum`: `accumulate` over each channel from `0.f`. -/
def ArrayRGB.sum (a : ArrayRGB K) : Fin 3 → K :=
  fun c => (a.v c).foldl (fun s x => s + x) 0

/-- The method `ArrayRGB::scale`: every sample of every channel times `factor`. -/
def ArrayRGB.scale (a : ArrayRGB K) (factor : K) : ArrayRGB K :=
  { a with v := fun i => (a.v i).map (fun x => x * factor) }

/-! ## getReflArea -/

/-- The first loop of `getReflArea`:
`while (actual_dpi >= 90 && actual_dpi % 3 == 0) { actual_dpi /= 3; x3++; }`. -/
def div3Loop (actual_dpi : Int) (x3 : Nat) : Int × Nat :=
  if h : 90 ≤ actual_dpi ∧ actual_dpi.tmod 3 = 0 then
    div3Loop (actual_dpi.tdiv 3) (x3 + 1)
  else (actual_dpi, x3)
termination_by actual_dpi.toNat
decreasing_by
  have h0 : (0 : Int) ≤ actual_dpi := by omega
  rw [Int.tdiv_eq_ediv h0 (by decide)]
  omega

/-- The second loop of `getReflArea`:
`while (actual_dpi >= 60 && actual_dpi % 2 == 0) { actual_dpi /= 2; x2++; }`. -/
def div2Loop (actual_dpi : Int) (x2 : Nat) : Int × Nat :=
  if h : 60 ≤ actual_dpi ∧ actual_dpi.tmod 2 = 0 then
    div2Loop (actual_dpi.tdiv 2) (x2 + 1)
  else (actual_dpi, x2)
termination_by actual_dpi.toNat
decreasing_by
  have h0 : (0 : Int) ≤ actual_dpi := by omega
  rw [Int.tdiv_eq_ediv h0 (by decide)]
  omega

/-- The step selection of `getReflArea`: `(actual_dpi, x3, x2)` after the two loops, which
run only when no override size is given. -/
def reflSteps (dpi use_this_size_if_not_0 : Int) : Int × Nat × Nat :=
  if use_this_size_if_not_0 = 0 then
    let r3 := div3Loop dpi 0
    let r2 := div2Loop r3.1 0
    (r2.1, r3.2, r2.2)
  else (use_this_size_if_not_0, 0, 0)

/-- The coefficient table `fvc`, highest power first. -/
def fvc : List K := [1.361e-15, -3.737e-12, 4.042e-09, -2.156e-06, 0.0005713, 0]

/-- The coefficient table `fhc`, highest power first. -/
def fhc : List K :=
  [7.729e-20, -1.842e-16, 1.793e-13, -9.23e-11, 2.756e-08, -5.168e-06, 0.0006892, 0]

/-- The lambda `fv`: the argument clamped to 400, Horner over `fvc`, times `.9574f`. -/
def fv (x : K) : K :=
  let x := if x > 400 then 400 else x
  0.9574 * fvc.foldl (fun s v => s * x + v) 0

/-- The lambda `fh`: the argument clamped to 400, Horner over `fhc`. -/
def fh (x : K) : K :=
  let x := if x > 400 then 400 else x
  fhc.foldl (fun s v => s * x + v) 0

/-- The value `getReflArea` stores in cell `(i, ii)` of all three channels (the live `else`
branch; the `if (false)` branch with `fv0` never runs).  `abs` is the floating-point
absolute value.  The statement `dist <= 400 ? dist: 400;` discards its value and leaves
`dist` as it is. -/
def reflCell (sqrt : K → K) (gain offset : K) (i ii : Nat) : K :=
  let offx0 := |gain * ((i : K) - offset)|
  let offx := if offx0 > 400 then 400 else offx0
  let offy0 := |gain * ((ii : K) - offset)|
  let offy := if offy0 > 400 then 400 else offy0
  let dist := sqrt (offx * offx + offy * offy + 0.0000001)
  let p1 := offx / (offx + offy + 0.00001) * (0.0838 - (0.0838 / 0.0579) * fv (1.1 * dist))
  let p2 := offy / (offx + offy + 0.00001) * (0.0838 - (0.0838 / 0.0579) * fh dist)
  if offx = 0 ∧ offy = 0 then 0.0838 - (0.0838 / 0.0579) * fv (1.1 * dist)
  else p1 + p2

/-- The body of the fill loops of `getReflArea`:
`ret(i, ii, 0) = ret(i, ii, 1) = ret(i, ii, 2) = value`, assigned right to left. -/
def fillCell (sqrt : K → K) (gain : K) (i ii : Nat) (ret : ArrayRGB K) : Option (ArrayRGB K) :=
  let value := reflCell sqrt gain (((ret.nc : K) - 1) / 2) i ii
  ((ret.set i ii 2 value).bind (fun r => r.set i ii 1 value)).bind
    (fun r => r.set i ii 0 value)

/-- The body of the normalisation loops of `getReflArea`: `ret(i, ii, c) *= factor`. -/
def scaleCell (factor : K) (c : Fin 3) (i ii : Nat) (ret : ArrayRGB K) : Option (ArrayRGB K) :=
  (ret.get i ii c).bind (fun x => ret.set i ii c (x * factor))

/-- The loops `for i < ret.nr, for ii < ret.nc` of the normalisation for one channel `c`
(no statement of the loops assigns `ret.nr` or `ret.nc`). -/
def scaleChannel (factor : K) (c : Fin 3) (ret : ArrayRGB K) : Option (ArrayRGB K) :=
  forLoop ret.nr (fun i r => forLoop ret.nc (fun ii r => scaleCell factor c i ii r) r) ret

/-- The function `getReflArea(dpi, use_this_size_if_not_0)`.  The result is the tuple
`make_tuple(ret, x2, x3)`.  `gain = 400.f/actual_dpi` and `factor = refl_fraction/sum[0]`
have no exact value when the divisor is zero.  `ret` is built by the three-argument
constructor `ArrayRGB(2*actual_dpi+1, 2*actual_dpi+1, actual_dpi)`; the header's defaults
for `from_16bits` and `gamma` are not in the sources and are taken as `false` and `1`, two
fields `getReflArea` never reads.  `refl_size` is computed and never used. -/
def getReflArea (sqrt : K → K) (dpi use_this_size_if_not_0 : Int) :
    Option (ArrayRGB K × Nat × Nat) :=
  let steps := reflSteps dpi use_this_size_if_not_0
  let actual_dpi := steps.1
  let x3 := steps.2.1
  let x2 := steps.2.2
  if actual_dpi = 0 then none
  else
    let gain : K := 400 / (actual_dpi : K)
    let refl_fraction : K := 0.20
    (ArrayRGB.create (2 * actual_dpi + 1) (2 * actual_dpi + 1) actual_dpi false (1 : K)).bind
      fun ret0 =>
        (forLoop ret0.nr
            (fun i r => forLoop ret0.nc (fun ii r => fillCell sqrt gain i ii r) r) ret0).bind
          fun ret1 =>
            let sum := ret1.sum
            if sum 0 = 0 then none
            else
              let factor := refl_fraction / sum 0
              (((scaleChannel factor 0 ret1).bind (scaleChannel factor 1)).bind
                  (scaleChannel factor 2)).map
                fun ret => (ret, x2, x3)

/-! ## Loop invariants for cell-by-cell updates -/

/-- One cell of every channel rewritten: channel `c` at flat index `k` becomes `f c old`. -/
def ArrayRGB.modifyAt (a : ArrayRGB K) (k : Nat) (f : Fin 3 → K → K) : ArrayRGB K :=
  { a with v := fun c => (a.v c).modify (f c) k }

/-- The cells a row-major double loop over `C` columns has visited when it stands in row `i`
before column `m`. -/
def visited (C i m r c : Nat) : Prop := (r < i ∧ c < C) ∨ (r = i ∧ c < m)

instance (C i m r c : Nat) : Decidable (visited C i m r c) := by
  unfold visited
  exact inferInstance

/-- The array after the double loop has visited the cells of `visited C i m`, each visited
cell `(r, c)` of channel `col` rewritten by `f r c col`. -/
def ArrayRGB.progress (a : ArrayRGB K) (C i m : Nat) (f : Nat → Nat → Fin 3 → K → K) :
    ArrayRGB K :=
  { a with
    v := fun col =>
      (a.v col).mapIdx fun k x =>
        if visited C i m (k / a.nc) (k % a.nc) then f (k / a.nc) (k % a.nc) col x else x }

/-- A loop body that rewrites exactly the cell it is called on. -/
def CellBody (a : ArrayRGB K) (R C : Nat) (body : Nat → Nat → ArrayRGB K → Option (ArrayRGB K))
    (f : Nat → Nat → Fin 3 → K → K) : Prop :=
  ∀ (b : ArrayRGB K) (i ii : Nat), b.nr = a.nr → b.nc = a.nc →
    (∀ c, (b.v c).length = a.nr * a.nc) → i < R → ii < C →
    body i ii b = some (b.modifyAt (i * a.nc + ii) (f i ii))

/-- The cells `getReflArea` computes before normalisation for kernel resolution `n`, in
row-major order. -/
def kernelCells (sqrt : K → K) (n : Nat) : List K :=
  (List.range ((2 * n + 1) * (2 * n + 1))).map fun k =>
    reflCell sqrt (400 / (n : K)) ((((2 * n + 1 : Nat) : K) - 1) / 2)
      (k / (2 * n + 1)) (k % (2 * n + 1))

/-- The kernel `getReflArea` returns for kernel resolution `n`: the cells of `kernelCells`,
each times `refl_fraction / sum[0]`, in all three channels. -/
def kernelOf (sqrt : K → K) (n : Nat) : ArrayRGB K :=
  { nr := 2 * n + 1
    nc := 2 * n + 1
    dpi := (n : Int)
    from_16bits := false
    gamma := 1
    v := fun _ => (kernelCells sqrt n).map fun x =>
      x * (0.20 / (kernelCells sqrt n).foldl (fun s x => s + x) 0) }

/-! ## Polynomial bounds by interval subdivision -/

/-- Value at `x` of the polynomial with rational coefficients `cs`, lowest power first. -/
def evalLow (cs : List ℚ) (x : K) : K :=
  match cs with
  | [] => 0
  | c :: cs => (c : K) + x * evalLow cs x

/-- Coefficientwise sum of two polynomials. -/
def addLow : List ℚ → List ℚ → List ℚ
  | [], q => q
  | p, [] => p
  | a :: p, b :: q => (a + b) :: addLow p q

/-- Coefficients of `t ↦ p (a + t)`. -/
def shiftLow (cs : List ℚ) (a : ℚ) : List ℚ :=
  match cs with
  | [] => []
  | c :: cs => addLow (c :: shiftLow cs a) ((shiftLow cs a).map fun q => a * q)

/-- An upper bound of the polynomial `cs` on `[0, w]`. -/
def ubLow (cs : List ℚ) (w : ℚ) : ℚ :=
  match cs with
  | [] => 0
  | c :: cs => c + w * max 0 (ubLow cs w)

/-- The bound `M` holds on each of the `m` intervals `[k w, (k+1) w]`. -/
def polyCheck (cs : List ℚ) (w : ℚ) (m : Nat) (M : ℚ) : Prop :=
  ∀ k < m, ubLow (shiftLow cs ((k : ℚ) * w)) w ≤ M

instance (cs : List ℚ) (w : ℚ) (m : Nat) (M : ℚ) : Decidable (polyCheck cs w m M) := by
  unfold polyCheck
  exact inferInstance

/-- The table `fvc` read lowest power first. -/
def fvcLow : List ℚ := [0, 0.0005713, -2.156e-06, 4.042e-09, -3.737e-12, 1.361e-15]

/-- The table `fhc` read lowest power first. -/
def fhcLow : List ℚ :=
  [0, 0.0006892, -5.168e-06, 2.756e-08, -9.23e-11, 1.793e-13, -1.842e-16, 7.729e-20]

/-- The clamped scaled offset `offx` (or `offy`) of `reflCell` for index `i`. -/
def scaledOffset (gain offset : K) (i : Nat) : K :=
  if |gain * ((i : K) - offset)| > 400 then 400 else |gain * ((i : K) - offset)|

/-- The cell value of `reflCell` as a function of its two clamped offsets. -/
def blend (sqrt : K → K) (offx offy : K) : K :=
  let dist := sqrt (offx * offx + offy * offy + 0.0000001)
  let p1 := offx / (offx + offy + 0.00001) * (0.0838 - (0.0838 / 0.0579) * fv (1.1 * dist))
  let p2 := offy / (offx + offy + 0.00001) * (0.0838 - (0.0838 / 0.0579) * fh dist)
  if offx = 0 ∧ offy = 0 then 0.0838 - (0.0838 / 0.0579) * fv (1.1 * dist)
  else p1 + p2

/-! ## generate_reflected_light_estimate -/

/-- The two innermost loops of the lambda `fix`: `sum` starts at 0 and, for `j < refl_area.nr`
and `jj < refl_area.nc`, grows by
`image_reduced(i + j, ii + jj, color) * refl_area(j, jj, color)`. -/
def windowSum (image_reduced refl_area : ArrayRGB K) (i ii : Nat) (color : Fin 3) : Option K :=
  forLoop refl_area.nr
    (fun j sum =>
      forLoop refl_area.nc
        (fun jj sum =>
          (image_reduced.get (i + j) (ii + jj) color).bind fun x =>
            (refl_area.get j jj color).map fun y => sum + x * y)
        sum)
    0

/-- The body of the loop over `ii` in `fix`: `image_correction(i, ii, color) = sum`. -/
def fixCell (image_reduced refl_area : ArrayRGB K) (color : Fin 3) (i ii : Nat)
    (image_correction : ArrayRGB K) : Option (ArrayRGB K) :=
  (windowSum image_reduced refl_area i ii color).bind fun sum =>
    image_correction.set i ii color sum

/-- The lambda `fix(s_row, e_row, color)` acting on `image_correction`: rows
`s_row ≤ i < e_row`, columns `0 ≤ ii < image_reduced.nc - refl_area.nc + 1`.  A bound that is
not positive gives no iteration. -/
def fix (image_reduced refl_area : ArrayRGB K) (s_row : Nat) (e_row : Int) (color : Fin 3)
    (image_correction : ArrayRGB K) : Option (ArrayRGB K) :=
  forLoop (e_row - s_row).toNat
    (fun k r =>
      forLoop ((image_reduced.nc : Int) - refl_area.nc + 1).toNat
        (fun ii r => fixCell image_reduced refl_area color (s_row + k) ii r) r)
    image_correction

/-- The function `generate_reflected_light_estimate`: `image_correction` is allocated with
`image_reduced.nr - 2 * image_reduced.dpi` rows and `image_reduced.nc - 2 * image_reduced.dpi`
columns, then the three tasks `c0`, `c1`, `c2` run `fix` over rows
`0 ≤ i < image_reduced.nr - refl_area.nr + 1` for the channels 0, 1 and 2; each writes its
own channel, and all three are joined before the return. -/
def generate_reflected_light_estimate (image_reduced refl_area : ArrayRGB K) :
    Option (ArrayRGB K) :=
  (ArrayRGB.create ((image_reduced.nr : Int) - 2 * image_reduced.dpi)
      ((image_reduced.nc : Int) - 2 * image_reduced.dpi) image_reduced.dpi
      image_reduced.from_16bits image_reduced.gamma).bind
    fun image_correction =>
      ((fix image_reduced refl_area 0 ((image_reduced.nr : Int) - refl_area.nr + 1) 0
            image_correction).bind
          (fix image_reduced refl_area 0 ((image_reduced.nr : Int) - refl_area.nr + 1) 1)).bind
        (fix image_reduced refl_area 0 ((image_reduced.nr : Int) - refl_area.nr + 1) 2)

/-- The sample `a(r, c, color)` of a well-formed array, 0 where there is none. -/
def ArrayRGB.val (a : ArrayRGB K) (r c : Nat) (color : Fin 3) : K :=
  (a.get r c color).getD 0

/-- The data-model invariant of the spec: each channel has `nr * nc` samples. -/
def ArrayRGB.WF (a : ArrayRGB K) : Prop := ∀ c, (a.v c).length = a.nr * a.nc

/-- A plane with every sample of every channel equal to `x`. -/
def ArrayRGB.const (nr nc : Nat) (dpi : Int) (x : K) : ArrayRGB K :=
  { nr := nr, nc := nc, dpi := dpi, from_16bits := false, gamma := 1,
    v := fun _ => List.replicate (nr * nc) x }

/-! ## The correction stages of `main` -/

/-- The call `std::clamp(v, lo, hi)`. -/
def clamp (v lo hi : K) : K := if v < lo then lo else if hi < v then hi else v

/-- The body of the loop "Subtract re-reflected light from original" of `main` for one
sample: `original` is `image_in(i, ii, color)` and `correction` the value
`bilinear(image_correction, i, ii, reduction, color)`; the result is the new
`image_in(i, ii, color)`. -/
def correctSample (simulate_reflected_light no_gain_restore : Bool) (original correction : K) :
    K :=
  let tmp :=
    if simulate_reflected_light then (original + correction * original) * (0.785 / 0.876)
    else (original - correction * original) * (if no_gain_restore then 1.0 else 0.876 / 0.785)
  clamp tmp 0 1

/-- A uniform plane corrected and then run through the simulation, each pass with the
correction value of its own uniform input, `0.20` times the value. -/
def correctThenSimulate (x : K) : K :=
  let y := correctSample false false x (0.20 * x)
  correctSample true false y (0.20 * y)

/-- A uniform plane run through the simulation and then corrected. -/
def simulateThenCorrect (x : K) : K :=
  let y := correctSample true false x (0.20 * x)
  correctSample false false y (0.20 * y)

/-- The expression `*(color.end() - (1 + color.size() / 10000))` on the sorted copy `color`
of one channel; an empty channel has no such element. -/
def percentileHigh (channel : List K) : Option K :=
  let color := channel.insertionSort (fun a b => a ≤ b)
  color[color.length - (1 + color.length / 10000)]?

/-- The loop of the white-point step of `main` that computes `maxcolor`, from 0, over the
three channels: `if (high > maxcolor) maxcolor = high`. -/
def maxcolor (image_in : ArrayRGB K) : Option K :=
  forLoop 3
    (fun i m =>
      if h : i < 3 then
        (percentileHigh (image_in.v ⟨i, h⟩)).map fun high => if high > m then high else m
      else none)
    0

/-- The white-point step of `main` (`adjust_to_detected_white`):
`image_in.scale(1 / maxcolor)`; a zero `maxcolor` has no reciprocal. -/
def adjustToDetectedWhite (image_in : ArrayRGB K) : Option (ArrayRGB K) :=
  (maxcolor image_in).bind fun m => if m = 0 then none else some (image_in.scale (1 / m))

/-! ## The reduction stage of `main` -/

/-- The quotient `int reduction = image_in.dpi / refl_area.dpi` of `main`, a C++ integer
division; a zero divisor has no quotient. -/
def mainReduction (image_dpi refl_area_dpi : Int) : Option Int :=
  if refl_area_dpi = 0 then none else some (image_dpi.tdiv refl_area_dpi)

/-- The loop `while (x--) image_reduced = downsample(image_reduced, factor)` of `main` run on
the extents of `image_reduced`: the extents after the loop, and the `(rows, cols, factor)`
each call of `downsample` receives, in order.  `downsample` is declared in the header
`tiffresults.h`, which is not among the sources; the extents of its result are the
parameter `downsampleExtents rows cols factor`. -/
def downsampleLoop (downsampleExtents : Nat → Nat → Nat → Nat × Nat) (factor : Nat) :
    Nat → Nat × Nat → (Nat × Nat) × List (Nat × Nat × Nat)
  | 0, ext => (ext, [])
  | x + 1, ext =>
    let r := downsampleLoop downsampleExtents factor x (downsampleExtents ext.1 ext.2 factor)
    (r.1, (ext.1, ext.2, factor) :: r.2)

/-- The calls of `downsample` that `main` makes for an input of `nr` rows, `nc` columns and
resolution `dpi`, with the counts `x2`, `x3` bound from the tuple of `getReflArea`:
`in_expanded` has `nr + 2 * margins` rows and `nc + 2 * margins` columns with
`margins = image_in.dpi`; `image_reduced` starts as `in_expanded`, goes `x3` times through
`downsample(image_reduced, 3)` and then `x2` times through `downsample(image_reduced, 2)`. -/
def mainDownsampleCalls (downsampleExtents : Nat → Nat → Nat → Nat × Nat) (nr nc : Nat)
    (dpi : Int) (x2 x3 : Nat) : Option (List (Nat × Nat × Nat)) :=
  if 0 ≤ (nr : Int) + 2 * dpi ∧ 0 ≤ (nc : Int) + 2 * dpi then
    let r3 := downsampleLoop downsampleExtents 3 x3
      (((nr : Int) + 2 * dpi).toNat, ((nc : Int) + 2 * dpi).toNat)
    let r2 := downsampleLoop downsampleExtents 2 x2 r3.1
    some (r3.2 ++ r2.2)
  else none

/-! ## The averaging of several input files in `main` -/

/-- The ways the averaging loop of `main` can fail: the `throw` of
"Additional input images are not the same size", and an index outside a channel. -/
inductive AverageFailure where
  | notSameSize
  | outOfRange
  deriving DecidableEq

/-- The loop `for (ii = 0; ii < additional.size(); ii++) image[ii] += additional[ii]` on one
channel. -/
def addChannel (image additional : List K) : Except AverageFailure (List K) :=
  if additional.length ≤ image.length then
    Except.ok (List.zipWith (fun x y => x + y) image additional ++ image.drop additional.length)
  else Except.error AverageFailure.outOfRange

/-- The body of the loop over the additional input files of `main`: the size check
`additional_image_in.v[0].size() != image_in.v[0].size()` with its `throw`, then the sum
channel by channel into `image_in`. -/
def addAdditionalImage (image_in additional_image_in : ArrayRGB K) :
    Except AverageFailure (ArrayRGB K) :=
  if (additional_image_in.v 0).length ≠ (image_in.v 0).length then
    Except.error AverageFailure.notSameSize
  else
    (addChannel (image_in.v 0) (additional_image_in.v 0)).bind fun c0 =>
      (addChannel (image_in.v 1) (additional_image_in.v 1)).bind fun c1 =>
        (addChannel (image_in.v 2) (additional_image_in.v 2)).bind fun c2 =>
          Except.ok { image_in with v := fun i => if i = 0 then c0 else if i = 1 then c1 else c2 }

/-- The averaging stage of `main` for the first image and the additional images read from
`cmdArgs[2 .. argCnt-1)`: every additional image is checked and added in turn, then, when
`argCnt - 3 > 0`, every sample is divided by `argCnt - 2`, the number of input images. -/
def averageImages (image_in : ArrayRGB K) (additional : List (ArrayRGB K)) :
    Except AverageFailure (ArrayRGB K) :=
  (additional.foldlM addAdditionalImage image_in).map fun sum =>
    if 0 < additional.length then
      { sum with v := fun i => (sum.v i).map fun x => x / ((additional.length : K) + 1) }
    else sum

/-! ## The output stage: bit depth and the 8-bit encoder -/

/-- The branch of `TiffWrite` on `rgb.from_16bits`: the value it gives
`TIFFTAG_BITSPERSAMPLE`, 8 in the `if (!rgb.from_16bits)` branch and 16 in the `else`
branch. -/
def tiffWriteBitsPerSample (from_16bits : Bool) : Nat :=
  if !from_16bits then 8 else 16

/-- The handling of `force_ouput_bits` at the end of `main`: the value of
`image_in.from_16bits` handed to `TiffWrite`.
`if (force_ouput_bits==16) image_in.from_16bits = false;
else if (force_ouput_bits == 8) image_in.from_16bits = true;`. -/
def forceOutputBits (force_ouput_bits : Int) (from_16bits : Bool) : Bool :=
  if force_ouput_bits = 16 then false
  else if force_ouput_bits = 8 then true
  else from_16bits

/-- The bits per sample of the file `main` writes for the option value `force_ouput_bits`
(0 when `-F` is not given) and an input read with the flag `from_16bits`. -/
def mainOutputBits (force_ouput_bits : Int) (from_16bits : Bool) : Nat :=
  tiffWriteBitsPerSample (forceOutputBits force_ouput_bits from_16bits)

/-- The lines of `one_channel_to_8` that compute `tmp`: `255 * pow(image_ch[i], inv_gamma)`,
then `if (tmp > 255) tmp = 255; if (tmp < 0) tmp = 0;`.  The C library `pow` is a
parameter. -/
def encodeTmp (pow : K → K → K) (inv_gamma x : K) : K :=
  let tmp := 255 * pow x inv_gamma
  let tmp := if tmp > 255 then 255 else tmp
  if tmp < 0 then 0 else tmp

/-- The residual a pixel starts from: `if (i % cols == 0) resid = 0;`. -/
def startResid (cols i : Nat) (resid : K) : K := if i % cols = 0 then 0 else resid

/-! ## The padded image of `main` -/

end Generic

section Floor

variable {K : Type} [LinearOrderedField K] [FloorRing K]

/-- The conversion `static_cast<uint8>(v)`: the integer part, kept modulo 256.  The encoder
passes values `v ≥ 0`, whose truncation is the floor. -/
def toUint8 (v : K) : Nat := (Int.toNat (Int.floor v)) % 256

/-- The value of `resid` after `resid += tmp - tmpr`, before the two adjusting branches. -/
def pendingResid (pow : K → K → K) (cols : Nat) (inv_gamma : K) (i : Nat) (x resid : K) : K :=
  startResid cols i resid + (encodeTmp pow inv_gamma x - (toUint8 (encodeTmp pow inv_gamma x + 0.5) : K))

/-- One iteration of the loop of `one_channel_to_8` for the pixel `i` with sample `x`: the
new `resid` and the byte stored in `ret[i]`; `tmpr++` and `tmpr--` are `uint8` arithmetic,
modulo 256. -/
def encodeStep (pow : K → K → K) (cols : Nat) (inv_gamma : K) (i : Nat) (x resid : K) :
    K × Nat :=
  let tmpr := toUint8 (encodeTmp pow inv_gamma x + 0.5)
  let resid := pendingResid pow cols inv_gamma i x resid
  if resid > 0.5 ∧ tmpr < 255 then (resid - 1, (tmpr + 1) % 256)
  else if resid < -0.5 then (resid + 1, (tmpr + 255) % 256)
  else (resid, tmpr)

/-- The state of the loop of `one_channel_to_8` after `i` iterations: `resid` and the bytes
`ret[0 .. i)` stored so far. -/
def encodeState (pow : K → K → K) (image_ch : List K) (cols : Nat) (inv_gamma : K) :
    Nat → K × List Nat
  | 0 => (0, [])
  | i + 1 =>
    let st := encodeState pow image_ch cols inv_gamma i
    let r := encodeStep pow cols inv_gamma i (image_ch.getD i 0) st.1
    (r.1, st.2 ++ [r.2])

/-- The lambda `one_channel_to_8(image_ch, cols, inv_gamma)` of `TiffWrite`: the bytes
`ret` after the loop has run over all of `image_ch`. -/
def one_channel_to_8 (pow : K → K → K) (image_ch : List K) (cols : Nat) (inv_gamma : K) :
    List Nat :=
  (encodeState pow image_ch cols inv_gamma image_ch.length).2

end Floor

/-! ## Theorems -/

section Loops

set_option linter.unusedSectionVars false

variable {K : Type} [LinearOrderedField K]

theorem forLoop_succ {σ : Type} (n : Nat) (body : Nat → σ → Option σ) (s : σ) :
    forLoop (n + 1) body s = (forLoop n body s).bind (body n) := rfl

theorem flat_div {nc i ii : Nat} (h : ii < nc) : (i * nc + ii) / nc = i := by
  have hpos : 0 < nc := by omega
  rw [Nat.add_comm, Nat.add_mul_div_right _ _ hpos, Nat.div_eq_of_lt h, Nat.zero_add]

theorem flat_mod {nc i ii : Nat} (h : ii < nc) : (i * nc + ii) % nc = ii := by
  rw [Nat.add_comm, Nat.add_mul_mod_self_right, Nat.mod_eq_of_lt h]

theorem flat_eq_iff {nc i ii k : Nat} (h : ii < nc) :
    i * nc + ii = k ↔ k / nc = i ∧ k % nc = ii := by
  constructor
  · intro hk
    subst hk
    exact ⟨flat_div h, flat_mod h⟩
  · rintro ⟨h1, h2⟩
    subst h1 h2
    rw [Nat.mul_comm]
    exact Nat.div_add_mod k nc

theorem progress_zero (a : ArrayRGB K) (C : Nat) (f : Nat → Nat → Fin 3 → K → K) :
    a.progress C 0 0 f = a := by
  cases a with
  | mk nr nc dpi b g v =>
    simp only [ArrayRGB.progress, visited]
    congr 1
    funext col
    apply List.ext_getElem?
    intro n
    simp

theorem progress_row_end (a : ArrayRGB K) (C i : Nat) (f : Nat → Nat → Fin 3 → K → K) :
    a.progress C i C f = a.progress C (i + 1) 0 f := by
  simp only [ArrayRGB.progress]
  congr 1
  funext col
  congr 1
  funext k x
  have : visited C i C (k / a.nc) (k % a.nc) ↔ visited C (i + 1) 0 (k / a.nc) (k % a.nc) := by
    unfold visited
    omega
  simp only [this]

theorem progress_step (a : ArrayRGB K) (C i m : Nat) (f : Nat → Nat → Fin 3 → K → K)
    (hm : m < C) (hC : C ≤ a.nc) :
    (a.progress C i m f).modifyAt (i * a.nc + m) (f i m) = a.progress C i (m + 1) f := by
  simp only [ArrayRGB.progress, ArrayRGB.modifyAt]
  congr 1
  funext col
  apply List.ext_getElem?
  intro k
  rw [List.getElem?_modify, List.getElem?_mapIdx, List.getElem?_mapIdx]
  cases hk : (a.v col)[k]? with
  | none => simp
  | some x =>
    simp only [Option.map_some', Option.map_eq_map, Option.some.injEq]
    have hlt : m < a.nc := by omega
    by_cases he : i * a.nc + m = k
    · have h1 := (flat_eq_iff hlt).1 he
      have hv : ¬ visited C i m (k / a.nc) (k % a.nc) := by
        unfold visited
        omega
      have hv2 : visited C i (m + 1) (k / a.nc) (k % a.nc) := by
        unfold visited
        omega
      rw [h1.1, h1.2] at hv hv2
      simp only [he, h1.1, h1.2, hv, hv2, if_true, if_false]
    · have h1 : ¬ (k / a.nc = i ∧ k % a.nc = m) := fun h => he ((flat_eq_iff hlt).2 h)
      have hv : visited C i (m + 1) (k / a.nc) (k % a.nc) ↔
          visited C i m (k / a.nc) (k % a.nc) := by
        unfold visited
        omega
      simp only [he, hv, if_false]

theorem progress_shape (a : ArrayRGB K) (C i m : Nat) (f : Nat → Nat → Fin 3 → K → K) :
    (a.progress C i m f).nr = a.nr ∧ (a.progress C i m f).nc = a.nc ∧
      ∀ c, ((a.progress C i m f).v c).length = (a.v c).length := by
  simp [ArrayRGB.progress]

theorem forLoop_row (a : ArrayRGB K) (R C : Nat)
    (body : Nat → Nat → ArrayRGB K → Option (ArrayRGB K)) (f : Nat → Nat → Fin 3 → K → K)
    (hC : C ≤ a.nc) (hwf : ∀ c, (a.v c).length = a.nr * a.nc)
    (hbody : CellBody a R C body f) (i : Nat) (hi : i < R) (m : Nat) (hm : m ≤ C) :
    forLoop m (fun ii r => body i ii r) (a.progress C i 0 f) = some (a.progress C i m f) := by
  induction m with
  | zero => rfl
  | succ m ih =>
    rw [forLoop_succ, ih (by omega)]
    simp only [Option.some_bind]
    obtain ⟨h1, h2, h3⟩ := progress_shape a C i m f
    rw [hbody _ i m h1 h2 (fun c => by rw [h3 c, hwf c]) hi (by omega)]
    rw [progress_step a C i m f (by omega) hC]

theorem forLoop_rect (a : ArrayRGB K) (R C : Nat)
    (body : Nat → Nat → ArrayRGB K → Option (ArrayRGB K)) (f : Nat → Nat → Fin 3 → K → K)
    (hC : C ≤ a.nc) (hwf : ∀ c, (a.v c).length = a.nr * a.nc)
    (hbody : CellBody a R C body f) (n : Nat) (hn : n ≤ R) :
    forLoop n (fun i r => forLoop C (fun ii r => body i ii r) r) a =
      some (a.progress C n 0 f) := by
  induction n with
  | zero => rw [progress_zero]; rfl
  | succ n ih =>
    rw [forLoop_succ, ih (by omega)]
    simp only [Option.some_bind]
    rw [forLoop_row a R C body f hC hwf hbody n (by omega) C (le_refl C), progress_row_end]

theorem flat_lt {nr nc i ii : Nat} (hi : i < nr) (hii : ii < nc) : i * nc + ii < nr * nc := by
  calc i * nc + ii < i * nc + nc := by omega
    _ = (i + 1) * nc := by ring
    _ ≤ nr * nc := Nat.mul_le_mul_right nc hi

theorem set_eq_some (b : ArrayRGB K) (i ii : Nat) (c : Fin 3) (x : K)
    (hi : i < b.nr) (hii : ii < b.nc) (hlen : (b.v c).length = b.nr * b.nc) :
    b.set i ii c x =
      some { b with v := Function.update b.v c ((b.v c).set (i * b.nc + ii) x) } := by
  unfold ArrayRGB.set
  rw [if_pos]
  exact ⟨hi, hii, by rw [hlen]; exact flat_lt hi hii⟩

theorem get_eq_getElem (b : ArrayRGB K) (i ii : Nat) (c : Fin 3)
    (hi : i < b.nr) (hii : ii < b.nc) : b.get i ii c = (b.v c)[i * b.nc + ii]? := by
  unfold ArrayRGB.get
  rw [if_pos ⟨hi, hii⟩]

theorem set_mk {nr nc i ii : Nat} (hi : i < nr) (hii : ii < nc) (dpi : Int) (f16 : Bool)
    (g : K) (v : Fin 3 → List K) (c : Fin 3) (x : K) (hlen : (v c).length = nr * nc) :
    (ArrayRGB.mk nr nc dpi f16 g v).set i ii c x =
      some (ArrayRGB.mk nr nc dpi f16 g (Function.update v c ((v c).set (i * nc + ii) x))) :=
  if_pos ⟨hi, hii, by rw [hlen]; exact flat_lt hi hii⟩

theorem fillCell_cellBody (sqrt : K → K) (gain : K) (a : ArrayRGB K) :
    CellBody a a.nr a.nc (fillCell sqrt gain)
      (fun i ii _ _ => reflCell sqrt gain (((a.nc : K) - 1) / 2) i ii) := by
  intro b i ii hnr hnc hlen hi hii
  cases b with
  | mk nr nc dpi f16 g v =>
    simp only at hnr hnc hlen
    subst hnr hnc
    unfold fillCell
    simp only []
    rw [set_mk hi hii dpi f16 g v 2 _ (hlen 2)]
    simp only [Option.some_bind]
    rw [set_mk hi hii dpi f16 g _ 1 _ (by simp [Function.update, hlen])]
    simp only [Option.some_bind]
    rw [set_mk hi hii dpi f16 g _ 0 _ (by simp [Function.update, hlen])]
    simp only [ArrayRGB.modifyAt]
    congr 2
    funext c
    rw [← List.set_eq_modify]
    fin_cases c <;> simp [Function.update]

theorem scaleCell_cellBody (factor : K) (c : Fin 3) (a : ArrayRGB K) :
    CellBody a a.nr a.nc (scaleCell factor c)
      (fun _ _ col x => if col = c then x * factor else x) := by
  intro b i ii hnr hnc hlen hi hii
  have hi2 : i < b.nr := by omega
  have hii2 : ii < b.nc := by omega
  have hk : i * b.nc + ii < (b.v c).length := by
    rw [hlen, ← hnr, ← hnc]; exact flat_lt hi2 hii2
  unfold scaleCell
  rw [get_eq_getElem b i ii c hi2 hii2, List.getElem?_eq_getElem hk]
  simp only [Option.some_bind]
  rw [set_eq_some b i ii c _ hi2 hii2 (by rw [hlen, hnr, hnc])]
  simp only [ArrayRGB.modifyAt, ← hnc]
  congr 2
  funext col
  apply List.ext_getElem?
  intro n
  rw [List.getElem?_modify]
  by_cases hcol : col = c
  · rw [hcol]
    simp only [Function.update_same, List.getElem?_set, if_true]
    by_cases hn : i * b.nc + ii = n
    · rw [← hn, List.getElem?_eq_getElem hk]
      simp [hk]
    · simp only [hn, if_false]
      cases (b.v c)[n]? <;> simp
  · simp only [Function.update_noteq hcol, if_neg hcol]
    cases (b.v col)[n]? <;> simp

theorem div3Loop_pos (a : Int) (x : Nat) (h : 1 ≤ a) : 1 ≤ (div3Loop a x).1 := by
  induction a, x using div3Loop.induct with
  | case1 a x hc ih =>
    rw [div3Loop, dif_pos hc]
    apply ih
    rw [Int.tdiv_eq_ediv (by omega) (by decide)]
    omega
  | case2 a x hc =>
    rw [div3Loop, dif_neg hc]
    exact h

theorem div2Loop_pos (a : Int) (x : Nat) (h : 1 ≤ a) : 1 ≤ (div2Loop a x).1 := by
  induction a, x using div2Loop.induct with
  | case1 a x hc ih =>
    rw [div2Loop, dif_pos hc]
    apply ih
    rw [Int.tdiv_eq_ediv (by omega) (by decide)]
    omega
  | case2 a x hc =>
    rw [div2Loop, dif_neg hc]
    exact h

theorem reflSteps_pos (dpi : Int) (h : 1 ≤ dpi) : 1 ≤ (reflSteps dpi 0).1 := by
  unfold reflSteps
  simp only [if_true]
  exact div2Loop_pos _ _ (div3Loop_pos _ _ h)

theorem progress_full (a : ArrayRGB K) (f : Nat → Nat → Fin 3 → K → K)
    (hwf : ∀ c, (a.v c).length = a.nr * a.nc) :
    a.progress a.nc a.nr 0 f =
      { a with v := fun c => (a.v c).mapIdx fun k x => f (k / a.nc) (k % a.nc) c x } := by
  simp only [ArrayRGB.progress]
  congr 1
  funext c
  apply List.ext_getElem?
  intro k
  rw [List.getElem?_mapIdx, List.getElem?_mapIdx]
  by_cases hk : k < (a.v c).length
  · rw [List.getElem?_eq_getElem hk]
    simp only [Option.map_some', Option.some.injEq]
    rw [hwf c] at hk
    have hpos : 0 < a.nc := by
      rcases Nat.eq_zero_or_pos a.nc with h0 | h0
      · rw [h0] at hk; simp at hk
      · exact h0
    have h1 : k / a.nc < a.nr := Nat.div_lt_of_lt_mul (by rw [Nat.mul_comm]; exact hk)
    have h2 : k % a.nc < a.nc := Nat.mod_lt _ hpos
    have hv : visited a.nc a.nr 0 (k / a.nc) (k % a.nc) := Or.inl ⟨h1, h2⟩
    rw [if_pos hv]
  · rw [List.getElem?_eq_none (by omega)]
    rfl

theorem fill_loops_eq (sqrt : K → K) (gain : K) (a : ArrayRGB K)
    (hwf : ∀ c, (a.v c).length = a.nr * a.nc) :
    forLoop a.nr (fun i r => forLoop a.nc (fun ii r => fillCell sqrt gain i ii r) r) a =
      some { a with v := fun _ => (List.range (a.nr * a.nc)).map (fun k =>
        reflCell sqrt gain (((a.nc : K) - 1) / 2) (k / a.nc) (k % a.nc)) } := by
  rw [forLoop_rect a a.nr a.nc (fillCell sqrt gain) _ (le_refl _) hwf
    (fillCell_cellBody sqrt gain a) a.nr (le_refl _), progress_full a _ hwf]
  congr 2
  funext c
  apply List.ext_getElem?
  intro k
  rw [List.getElem?_mapIdx, List.getElem?_map]
  by_cases hk : k < a.nr * a.nc
  · rw [List.getElem?_eq_getElem (by rw [hwf c]; exact hk), List.getElem?_range hk]
    rfl
  · rw [List.getElem?_eq_none (by rw [hwf c]; omega),
      List.getElem?_eq_none (by rw [List.length_range]; omega)]
    rfl

theorem scaleChannel_eq (factor : K) (c : Fin 3) (a : ArrayRGB K)
    (hwf : ∀ c, (a.v c).length = a.nr * a.nc) :
    scaleChannel factor c a =
      some { a with v := Function.update a.v c ((a.v c).map fun x => x * factor) } := by
  unfold scaleChannel
  rw [forLoop_rect a a.nr a.nc (scaleCell factor c) _ (le_refl _) hwf
    (scaleCell_cellBody factor c a) a.nr (le_refl _), progress_full a _ hwf]
  congr 2
  funext col
  apply List.ext_getElem?
  intro k
  rw [List.getElem?_mapIdx]
  by_cases hcol : col = c
  · subst hcol
    simp [List.getElem?_map]
  · simp [Function.update_noteq hcol, hcol]

theorem getReflArea_eq (sqrt : K → K) (dpi : Int) (h : 1 ≤ dpi)
    (hS : (kernelCells sqrt (reflSteps dpi 0).1.toNat).foldl (fun s x => s + x) 0 ≠ 0) :
    getReflArea sqrt dpi 0 =
      some (kernelOf sqrt (reflSteps dpi 0).1.toNat, (reflSteps dpi 0).2.2,
        (reflSteps dpi 0).2.1) := by
  have hpos := reflSteps_pos dpi h
  generalize hst : reflSteps dpi 0 = st at hpos hS ⊢
  obtain ⟨a, x3, x2⟩ := st
  simp only at hpos hS ⊢
  obtain ⟨n, rfl⟩ : ∃ n : Nat, a = (n : Int) := ⟨a.toNat, by omega⟩
  simp only [Int.toNat_ofNat] at hS ⊢
  have hn : 1 ≤ n := by omega
  unfold getReflArea
  simp only [hst]
  rw [if_neg (by omega)]
  have hcreate : ArrayRGB.create (2 * (n : Int) + 1) (2 * (n : Int) + 1) (n : Int) false (1 : K) =
      some { nr := 2 * n + 1, nc := 2 * n + 1, dpi := (n : Int), from_16bits := false,
             gamma := 1, v := fun _ => List.replicate ((2 * n + 1) * (2 * n + 1)) 0 } := by
    unfold ArrayRGB.create
    rw [if_pos (by omega)]
    have e : (2 * (n : Int) + 1).toNat = 2 * n + 1 := by omega
    simp only [e]
  rw [hcreate]
  simp only [Option.some_bind]
  have hfill := fill_loops_eq sqrt (400 / (((n : Int)) : K))
    ({ nr := 2 * n + 1, nc := 2 * n + 1, dpi := (n : Int), from_16bits := false,
       gamma := 1, v := fun _ => List.replicate ((2 * n + 1) * (2 * n + 1)) 0 } : ArrayRGB K)
    (by intro c; simp)
  simp only at hfill
  rw [hfill]
  simp only [Option.some_bind, ArrayRGB.sum, Int.cast_natCast]
  have hcells : (List.map (fun k => reflCell sqrt (400 / (n : K)) ((((2 * n + 1 : Nat) : K) - 1) / 2)
      (k / (2 * n + 1)) (k % (2 * n + 1))) (List.range ((2 * n + 1) * (2 * n + 1)))) =
      kernelCells sqrt n := rfl
  rw [hcells, if_neg hS]
  rw [scaleChannel_eq _ 0 _ (by intro c; simp [kernelCells])]
  simp only [Option.some_bind]
  rw [scaleChannel_eq _ 1 _ (by intro c; fin_cases c <;> simp [kernelCells, Function.update])]
  simp only [Option.some_bind]
  rw [scaleChannel_eq _ 2 _ (by intro c; fin_cases c <;> simp [kernelCells, Function.update])]
  simp only [Option.map_some', kernelOf]
  congr 3
  funext c
  fin_cases c <;> simp [Function.update]

theorem div3Loop_step (a : Int) (x : Nat) (h : 90 ≤ a ∧ a.tmod 3 = 0) :
    div3Loop a x = div3Loop (a.tdiv 3) (x + 1) := by
  rw [div3Loop, dif_pos h]

theorem div3Loop_stop (a : Int) (x : Nat) (h : ¬ (90 ≤ a ∧ a.tmod 3 = 0)) :
    div3Loop a x = (a, x) := by
  rw [div3Loop, dif_neg h]

theorem div2Loop_step (a : Int) (x : Nat) (h : 60 ≤ a ∧ a.tmod 2 = 0) :
    div2Loop a x = div2Loop (a.tdiv 2) (x + 1) := by
  rw [div2Loop, dif_pos h]

theorem div2Loop_stop (a : Int) (x : Nat) (h : ¬ (60 ≤ a ∧ a.tmod 2 = 0)) :
    div2Loop a x = (a, x) := by
  rw [div2Loop, dif_neg h]

theorem reflSteps_150 : reflSteps 150 0 = (50, 1, 0) := by
  unfold reflSteps
  rw [if_pos rfl, div3Loop_step 150 0 (by decide), div3Loop_stop _ _ (by decide)]
  simp only []
  rw [div2Loop_stop _ _ (by decide)]
  rfl

theorem reflSteps_200 : reflSteps 200 0 = (50, 0, 2) := by
  unfold reflSteps
  rw [if_pos rfl, div3Loop_stop _ _ (by decide)]
  simp only []
  rw [div2Loop_step _ _ (by decide), div2Loop_step _ _ (by decide),
    div2Loop_stop _ _ (by decide)]
  rfl

theorem reflSteps_300 : reflSteps 300 0 = (50, 1, 1) := by
  unfold reflSteps
  rw [if_pos rfl, div3Loop_step 300 0 (by decide), div3Loop_stop _ _ (by decide)]
  simp only []
  rw [div2Loop_step _ _ (by decide), div2Loop_stop _ _ (by decide)]
  rfl

theorem evalLow_addLow (p q : List ℚ) (x : K) :
    evalLow (addLow p q) x = evalLow p x + evalLow q x := by
  induction p generalizing q with
  | nil => simp [addLow, evalLow]
  | cons a p ih =>
    cases q with
    | nil => simp [addLow, evalLow]
    | cons b q =>
      simp only [addLow, evalLow, ih]
      push_cast
      ring

theorem evalLow_scale (a : ℚ) (q : List ℚ) (x : K) :
    evalLow (q.map fun c => a * c) x = (a : K) * evalLow q x := by
  induction q with
  | nil => simp [evalLow]
  | cons b q ih =>
    simp only [List.map_cons, evalLow, ih]
    push_cast
    ring

theorem evalLow_shiftLow (cs : List ℚ) (a : ℚ) (t : K) :
    evalLow (shiftLow cs a) t = evalLow cs ((a : K) + t) := by
  induction cs with
  | nil => simp [shiftLow, evalLow]
  | cons c cs ih =>
    simp only [shiftLow, evalLow_addLow, evalLow_scale, evalLow, ih]
    ring

theorem evalLow_le_ubLow (cs : List ℚ) (w : ℚ) (t : K) (h0 : 0 ≤ t) (hw : t ≤ (w : K)) :
    evalLow cs t ≤ ((ubLow cs w : ℚ) : K) := by
  induction cs with
  | nil => simp [evalLow, ubLow]
  | cons c cs ih =>
    simp only [evalLow, ubLow]
    push_cast
    have hw0 : (0 : K) ≤ (w : K) := le_trans h0 hw
    have hmax : (0 : K) ≤ max 0 ((ubLow cs w : ℚ) : K) := le_max_left _ _
    have key : t * evalLow cs t ≤ (w : K) * max 0 ((ubLow cs w : ℚ) : K) := by
      rcases le_total (evalLow cs t) 0 with hneg | hpos
      · exact le_trans (mul_nonpos_of_nonneg_of_nonpos h0 hneg) (mul_nonneg hw0 hmax)
      · calc t * evalLow cs t ≤ (w : K) * evalLow cs t := mul_le_mul_of_nonneg_right hw hpos
          _ ≤ (w : K) * max 0 ((ubLow cs w : ℚ) : K) :=
            mul_le_mul_of_nonneg_left (le_trans ih (le_max_right _ _)) hw0
    linarith

theorem evalLow_le_of_polyCheck (cs : List ℚ) (w : ℚ) (m : Nat) (M : ℚ) (hm : 0 < m)
    (hchk : polyCheck cs w m M) (x : K) (h0 : 0 ≤ x) (hx : x ≤ (m : K) * (w : K)) :
    evalLow cs x ≤ (M : K) := by
  induction m with
  | zero => exact absurd hm (lt_irrefl 0)
  | succ m ih =>
    rcases lt_or_le x ((m : K) * (w : K)) with hlt | hge
    · have hm0 : 0 < m := by
        rcases Nat.eq_zero_or_pos m with h | h
        · subst h
          simp at hlt
          exact absurd hlt (not_lt.2 h0)
        · exact h
      exact ih hm0 (fun k hk => hchk k (Nat.lt_succ_of_lt hk)) (le_of_lt hlt)
    · have hb := hchk m (Nat.lt_succ_self m)
      have ht : x = (((m : ℚ) * w : ℚ) : K) + (x - (m : K) * (w : K)) := by
        push_cast; ring
      rw [ht, ← evalLow_shiftLow]
      refine le_trans (evalLow_le_ubLow _ w _ (by linarith) ?_) (by exact_mod_cast hb)
      push_cast at hx
      linarith

theorem fvc_foldl (x : K) :
    (fvc : List K).foldl (fun s v => s * x + v) 0 = evalLow fvcLow x := by
  simp only [fvc, fvcLow, List.foldl, evalLow]
  norm_num
  ring

theorem fhc_foldl (x : K) :
    (fhc : List K).foldl (fun s v => s * x + v) 0 = evalLow fhcLow x := by
  simp only [fhc, fhcLow, List.foldl, evalLow]
  norm_num
  ring

theorem reflCell_eq_blend (sqrt : K → K) (gain offset : K) (i ii : Nat) :
    reflCell sqrt gain offset i ii =
      blend sqrt (scaledOffset gain offset i) (scaledOffset gain offset ii) := rfl

theorem scaledOffset_nonneg (gain offset : K) (i : Nat) : 0 ≤ scaledOffset gain offset i := by
  unfold scaledOffset
  split_ifs
  · norm_num
  · exact abs_nonneg _

theorem scaledOffset_le (gain offset : K) (i : Nat) : scaledOffset gain offset i ≤ 400 := by
  unfold scaledOffset
  split_ifs with h
  · exact le_refl _
  · exact not_lt.1 h

theorem fv_eq (x : K) : fv x = 0.9574 * evalLow fvcLow (if x > 400 then 400 else x) := by
  unfold fv
  simp only [fvc_foldl]

theorem fh_eq (x : K) : fh x = evalLow fhcLow (if x > 400 then 400 else x) := by
  unfold fh
  simp only [fhc_foldl]

theorem fv_le_of_check (w : ℚ) (m : Nat) (M : ℚ) (hm : 0 < m)
    (hchk : polyCheck fvcLow w m M) (hmw : (m : ℚ) * w ≤ 400) (x : K) (h0 : 0 ≤ x)
    (hx : x ≤ (m : K) * (w : K)) : fv x ≤ 0.9574 * (M : K) := by
  have hmw2 : (m : K) * (w : K) ≤ 400 := by exact_mod_cast hmw
  rw [fv_eq, if_neg (by linarith)]
  have := evalLow_le_of_polyCheck fvcLow w m M hm hchk x h0 hx
  linarith

theorem fh_le_of_check (w : ℚ) (m : Nat) (M : ℚ) (hm : 0 < m)
    (hchk : polyCheck fhcLow w m M) (hmw : (m : ℚ) * w ≤ 400) (x : K) (h0 : 0 ≤ x)
    (hx : x ≤ (m : K) * (w : K)) : fh x ≤ (M : K) := by
  have hmw2 : (m : K) * (w : K) ≤ 400 := by exact_mod_cast hmw
  rw [fh_eq, if_neg (by linarith)]
  exact evalLow_le_of_polyCheck fhcLow w m M hm hchk x h0 hx

theorem fv_le_global (x : K) (h0 : 0 ≤ x) : fv x ≤ 0.9574 * 0.0605484 := by
  have hchk : polyCheck fvcLow 8 50 0.0605484 := by decide!
  rw [fv_eq]
  have h := evalLow_le_of_polyCheck fvcLow 8 50 0.0605484 (by norm_num) hchk
    (if x > 400 then 400 else x) (by split_ifs <;> linarith)
    (by split_ifs with h1 <;> push_cast <;> linarith)
  push_cast at h
  linarith

theorem fh_le_global (x : K) (h0 : 0 ≤ x) : fh x ≤ 0.057969 := by
  have hchk : polyCheck fhcLow 8 50 0.057969 := by decide!
  rw [fh_eq]
  have h := evalLow_le_of_polyCheck fhcLow 8 50 0.057969 (by norm_num) hchk
    (if x > 400 then 400 else x) (by split_ifs <;> linarith)
    (by split_ifs with h1 <;> push_cast <;> linarith)
  push_cast at h
  linarith

end Loops

section Kernel

open Finset

/-- Weighted mix of two values bounded below by `p`: the weights are the two offsets' shares
of `offx + offy + 0.00001`. -/
theorem mix_ge (X Y A B p : ℝ) (hX : 0 ≤ X) (hY : 0 ≤ Y) (hA : p ≤ A) (hB : p ≤ B) :
    (X + Y) / (X + Y + 0.00001) * p ≤
      X / (X + Y + 0.00001) * A + Y / (X + Y + 0.00001) * B := by
  have hden : (0 : ℝ) < X + Y + 0.00001 := by linarith
  have h1 : 0 ≤ X / (X + Y + 0.00001) := div_nonneg hX (le_of_lt hden)
  have h2 : 0 ≤ Y / (X + Y + 0.00001) := div_nonneg hY (le_of_lt hden)
  have e : (X + Y) / (X + Y + 0.00001) = X / (X + Y + 0.00001) + Y / (X + Y + 0.00001) := by
    rw [add_div]
  rw [e, add_mul]
  exact add_le_add (mul_le_mul_of_nonneg_left hA h1) (mul_le_mul_of_nonneg_left hB h2)

theorem share_le_one (X Y : ℝ) (hX : 0 ≤ X) (hY : 0 ≤ Y) :
    (X + Y) / (X + Y + 0.00001) ≤ 1 := by
  have hden : (0 : ℝ) < X + Y + 0.00001 := by linarith
  rw [div_le_one hden]
  linarith

theorem share_nonneg (X Y : ℝ) (hX : 0 ≤ X) (hY : 0 ≤ Y) :
    0 ≤ (X + Y) / (X + Y + 0.00001) :=
  div_nonneg (by linarith) (by linarith)

/-- Every value `reflCell` can produce is at least `-0.0001`. -/
theorem blend_ge_global (X Y : ℝ) (hX : 0 ≤ X) (hY : 0 ≤ Y) :
    -0.0001 ≤ blend Real.sqrt X Y := by
  unfold blend
  simp only []
  have hd := Real.sqrt_nonneg (X * X + Y * Y + 0.0000001)
  have hv := fv_le_global (1.1 * Real.sqrt (X * X + Y * Y + 0.0000001)) (by positivity)
  have hh := fh_le_global (Real.sqrt (X * X + Y * Y + 0.0000001)) hd
  have hA : (-0.0001 : ℝ) ≤
      0.0838 - (0.0838 / 0.0579) * fv (1.1 * Real.sqrt (X * X + Y * Y + 0.0000001)) := by
    have : (0.0838 / 0.0579 : ℝ) * fv (1.1 * Real.sqrt (X * X + Y * Y + 0.0000001)) ≤
        (0.0838 / 0.0579) * (0.9574 * 0.0605484) :=
      mul_le_mul_of_nonneg_left hv (by norm_num)
    have e : (0.0838 / 0.0579 : ℝ) * (0.9574 * 0.0605484) ≤ 0.0839 := by norm_num
    linarith
  have hB : (-0.0001 : ℝ) ≤
      0.0838 - (0.0838 / 0.0579) * fh (Real.sqrt (X * X + Y * Y + 0.0000001)) := by
    have : (0.0838 / 0.0579 : ℝ) * fh (Real.sqrt (X * X + Y * Y + 0.0000001)) ≤
        (0.0838 / 0.0579) * 0.057969 :=
      mul_le_mul_of_nonneg_left hh (by norm_num)
    have e : (0.0838 / 0.0579 : ℝ) * 0.057969 ≤ 0.0839 := by norm_num
    linarith
  split_ifs with h0
  · exact hA
  · have hm := mix_ge X Y _ _ (-0.0001) hX hY hA hB
    have h1 := share_le_one X Y hX hY
    have h2 := share_nonneg X Y hX hY
    nlinarith

/-- Bound of the distance `dist` by the two offsets. -/
theorem dist_le (X Y b D : ℝ) (hX : 0 ≤ X) (hY : 0 ≤ Y) (hXb : X ≤ b) (hYb : Y ≤ b)
    (hD : 0 ≤ D) (hbD : b * b + b * b + 0.0000001 ≤ D ^ 2) :
    Real.sqrt (X * X + Y * Y + 0.0000001) ≤ D := by
  rw [Real.sqrt_le_left hD]
  have h1 : X * X ≤ b * b := mul_le_mul hXb hXb hX (le_trans hX hXb)
  have h2 : Y * Y ≤ b * b := mul_le_mul hYb hYb hY (le_trans hY hYb)
  linarith

/-- Cells whose two scaled offsets are at most 200 are non-negative. -/
theorem blend_nonneg (X Y : ℝ) (hX : 0 ≤ X) (hY : 0 ≤ Y) (hX2 : X ≤ 200) (hY2 : Y ≤ 200) :
    0 ≤ blend Real.sqrt X Y := by
  unfold blend
  simp only []
  have hd := Real.sqrt_nonneg (X * X + Y * Y + 0.0000001)
  have hD := dist_le X Y 200 283 hX hY hX2 hY2 (by norm_num) (by norm_num)
  have hcv : polyCheck fvcLow 8 39 0.06047 := by decide!
  have hch : polyCheck fhcLow 8 36 0.0579 := by decide!
  have hv := fv_le_of_check 8 39 0.06047 (by norm_num) hcv (by norm_num)
    (1.1 * Real.sqrt (X * X + Y * Y + 0.0000001)) (by positivity)
    (by push_cast; linarith)
  have hh := fh_le_of_check 8 36 0.0579 (by norm_num) hch (by norm_num)
    (Real.sqrt (X * X + Y * Y + 0.0000001)) hd (by push_cast; linarith)
  push_cast at hv hh
  have hA : (0 : ℝ) ≤
      0.0838 - (0.0838 / 0.0579) * fv (1.1 * Real.sqrt (X * X + Y * Y + 0.0000001)) := by
    have : (0.0838 / 0.0579 : ℝ) * fv (1.1 * Real.sqrt (X * X + Y * Y + 0.0000001)) ≤
        (0.0838 / 0.0579) * (0.9574 * 0.06047) :=
      mul_le_mul_of_nonneg_left hv (by norm_num)
    have e : (0.0838 / 0.0579 : ℝ) * (0.9574 * 0.06047) ≤ 0.0838 := by norm_num
    linarith
  have hB : (0 : ℝ) ≤
      0.0838 - (0.0838 / 0.0579) * fh (Real.sqrt (X * X + Y * Y + 0.0000001)) := by
    have : (0.0838 / 0.0579 : ℝ) * fh (Real.sqrt (X * X + Y * Y + 0.0000001)) ≤
        (0.0838 / 0.0579) * 0.0579 :=
      mul_le_mul_of_nonneg_left hh (by norm_num)
    have e : (0.0838 / 0.0579 : ℝ) * 0.0579 ≤ 0.0838 := by norm_num
    linarith
  split_ifs with h0
  · exact hA
  · have hm := mix_ge X Y _ _ 0 hX hY hA hB
    linarith

/-- Cells with one scaled offset in `[50, 100]` and the other at most 100 are at least
`0.014`. -/
theorem blend_ge_band (X Y : ℝ) (hX : 50 ≤ X) (hY : 0 ≤ Y) (hX2 : X ≤ 100) (hY2 : Y ≤ 100) :
    0.014 ≤ blend Real.sqrt X Y := by
  have hX0 : 0 ≤ X := by linarith
  unfold blend
  simp only []
  have hd := Real.sqrt_nonneg (X * X + Y * Y + 0.0000001)
  have hD := dist_le X Y 100 141.5 hX0 hY hX2 hY2 (by norm_num) (by norm_num)
  have hcv : polyCheck fvcLow 7.8 20 0.0502 := by decide!
  have hch : polyCheck fhcLow 7.1 20 0.048 := by decide!
  have hv := fv_le_of_check 7.8 20 0.0502 (by norm_num) hcv (by norm_num)
    (1.1 * Real.sqrt (X * X + Y * Y + 0.0000001)) (by positivity)
    (by push_cast; linarith)
  have hh := fh_le_of_check 7.1 20 0.048 (by norm_num) hch (by norm_num)
    (Real.sqrt (X * X + Y * Y + 0.0000001)) hd (by push_cast; linarith)
  push_cast at hv hh
  have hA : (0.0142 : ℝ) ≤
      0.0838 - (0.0838 / 0.0579) * fv (1.1 * Real.sqrt (X * X + Y * Y + 0.0000001)) := by
    have : (0.0838 / 0.0579 : ℝ) * fv (1.1 * Real.sqrt (X * X + Y * Y + 0.0000001)) ≤
        (0.0838 / 0.0579) * (0.9574 * 0.0502) :=
      mul_le_mul_of_nonneg_left hv (by norm_num)
    have e : (0.0838 / 0.0579 : ℝ) * (0.9574 * 0.0502) ≤ 0.0696 := by norm_num
    linarith
  have hB : (0.0142 : ℝ) ≤
      0.0838 - (0.0838 / 0.0579) * fh (Real.sqrt (X * X + Y * Y + 0.0000001)) := by
    have : (0.0838 / 0.0579 : ℝ) * fh (Real.sqrt (X * X + Y * Y + 0.0000001)) ≤
        (0.0838 / 0.0579) * 0.048 :=
      mul_le_mul_of_nonneg_left hh (by norm_num)
    have e : (0.0838 / 0.0579 : ℝ) * 0.048 ≤ 0.0696 := by norm_num
    linarith
  have hne : ¬ (X = 0 ∧ Y = 0) := fun h => by linarith [h.1]
  rw [if_neg hne]
  have hm := mix_ge X Y _ _ 0.0142 hX0 hY hA hB
  have hs : (0.99 : ℝ) ≤ (X + Y) / (X + Y + 0.00001) := by
    rw [le_div_iff₀ (by linarith)]
    linarith
  nlinarith

/-- The centre cell, with both offsets zero, is at least `0.08`. -/
theorem blend_center : 0.08 ≤ blend Real.sqrt 0 0 := by
  unfold blend
  simp only []
  rw [if_pos (by simp)]
  have hd := Real.sqrt_nonneg ((0 : ℝ) * 0 + 0 * 0 + 0.0000001)
  have hD : Real.sqrt ((0 : ℝ) * 0 + 0 * 0 + 0.0000001) ≤ 0.001 := by
    rw [Real.sqrt_le_left (by norm_num)]
    norm_num
  have hcv : polyCheck fvcLow 1 1 0.001 := by decide!
  have hv := fv_le_of_check 1 1 0.001 (by norm_num) hcv (by norm_num)
    (1.1 * Real.sqrt ((0 : ℝ) * 0 + 0 * 0 + 0.0000001)) (by positivity)
    (by push_cast; linarith)
  push_cast at hv
  have : (0.0838 / 0.0579 : ℝ) * fv (1.1 * Real.sqrt ((0 : ℝ) * 0 + 0 * 0 + 0.0000001)) ≤
      (0.0838 / 0.0579) * (0.9574 * 0.001) :=
    mul_le_mul_of_nonneg_left hv (by norm_num)
  have e : (0.0838 / 0.0579 : ℝ) * (0.9574 * 0.001) ≤ 0.0038 := by norm_num
  linarith

theorem foldl_add_eq_sum {K : Type} [LinearOrderedField K] (f : Nat → K) (n : Nat) :
    ((List.range n).map f).foldl (fun s x => s + x) 0 = ∑ k ∈ range n, f k := by
  rw [← List.sum_eq_foldl]
  induction n with
  | zero => simp
  | succ n ih => rw [List.sum_range_succ, Finset.sum_range_succ, ih]

theorem sum_range_mul {K : Type} [LinearOrderedField K] (g : Nat → Nat → K) (R N : Nat) :
    ∑ k ∈ range (R * N), g (k / N) (k % N) = ∑ i ∈ range R, ∑ j ∈ range N, g i j := by
  induction R with
  | zero => simp
  | succ R ih =>
    rw [Nat.succ_mul, Finset.sum_range_add, ih, Finset.sum_range_succ]
    congr 1
    apply Finset.sum_congr rfl
    intro j hj
    have hj2 : j < N := Finset.mem_range.1 hj
    rw [flat_div hj2, flat_mod hj2]

/-- The sum `ret.sum()[0]` of the cells before normalisation, as a double sum. -/
theorem kernelCells_sum {K : Type} [LinearOrderedField K] (sqrt : K → K) (n : Nat) :
    (kernelCells sqrt n).foldl (fun s x => s + x) 0 =
      ∑ i ∈ range (2 * n + 1), ∑ j ∈ range (2 * n + 1),
        reflCell sqrt (400 / (n : K)) ((((2 * n + 1 : Nat) : K) - 1) / 2) i j := by
  unfold kernelCells
  rw [foldl_add_eq_sum, sum_range_mul]

theorem scaledOffset_eq (n i : Nat) (hn : 1 ≤ n) (hi : i ≤ 2 * n) :
    scaledOffset (400 / (n : ℝ)) ((((2 * n + 1 : Nat) : ℝ) - 1) / 2) i =
      400 / (n : ℝ) * |(i : ℝ) - n| := by
  have hn0 : (0 : ℝ) < n := by exact_mod_cast hn
  have e : (((2 * n + 1 : Nat) : ℝ) - 1) / 2 = n := by push_cast; ring
  have hi2 : (i : ℝ) ≤ 2 * n := by exact_mod_cast hi
  have hi0 : (0 : ℝ) ≤ i := by positivity
  unfold scaledOffset
  rw [e, abs_mul, abs_of_pos (div_pos (by norm_num) hn0)]
  have habs : |(i : ℝ) - n| ≤ n := by
    rw [abs_le]; constructor <;> linarith
  have hle : 400 / (n : ℝ) * |(i : ℝ) - n| ≤ 400 := by
    rw [div_mul_eq_mul_div, div_le_iff₀ hn0]
    nlinarith
  rw [if_neg (not_lt.2 hle)]

theorem scaledOffset_le_of (n i : Nat) (hn : 1 ≤ n) (hi : i ≤ 2 * n) (b t : ℝ)
    (ht : |(i : ℝ) - n| ≤ t) (hb : 400 * t ≤ b * n) :
    scaledOffset (400 / (n : ℝ)) ((((2 * n + 1 : Nat) : ℝ) - 1) / 2) i ≤ b := by
  have hn0 : (0 : ℝ) < n := by exact_mod_cast hn
  rw [scaledOffset_eq n i hn hi, div_mul_eq_mul_div, div_le_iff₀ hn0]
  nlinarith

theorem scaledOffset_ge_of (n i : Nat) (hn : 1 ≤ n) (hi : i ≤ 2 * n) (b t : ℝ)
    (ht : t ≤ |(i : ℝ) - n|) (hb : b * n ≤ 400 * t) :
    b ≤ scaledOffset (400 / (n : ℝ)) ((((2 * n + 1 : Nat) : ℝ) - 1) / 2) i := by
  have hn0 : (0 : ℝ) < n := by exact_mod_cast hn
  rw [scaledOffset_eq n i hn hi, div_mul_eq_mul_div, le_div_iff₀ hn0]
  nlinarith

theorem scaledOffset_center (n : Nat) (hn : 1 ≤ n) :
    scaledOffset (400 / (n : ℝ)) ((((2 * n + 1 : Nat) : ℝ) - 1) / 2) n = 0 := by
  rw [scaledOffset_eq n n hn (by omega)]
  simp

/-- Every cell of the kernel of resolution `n` is at least `-0.0001` before normalisation. -/
theorem cell_ge_global (n i j : Nat) :
    -0.0001 ≤ reflCell Real.sqrt (400 / (n : ℝ)) ((((2 * n + 1 : Nat) : ℝ) - 1) / 2) i j := by
  rw [reflCell_eq_blend]
  exact blend_ge_global _ _ (scaledOffset_nonneg _ _ _) (scaledOffset_nonneg _ _ _)

theorem cell_center (n : Nat) (hn : 1 ≤ n) :
    0.08 ≤ reflCell Real.sqrt (400 / (n : ℝ)) ((((2 * n + 1 : Nat) : ℝ) - 1) / 2) n n := by
  rw [reflCell_eq_blend, scaledOffset_center n hn]
  exact blend_center

theorem abs_sub_le_of_nat (i n t : Nat) (h1 : n ≤ i + t) (h2 : i ≤ n + t) :
    |(i : ℝ) - n| ≤ t := by
  have h1r : (n : ℝ) ≤ i + t := by exact_mod_cast h1
  have h2r : (i : ℝ) ≤ n + t := by exact_mod_cast h2
  rw [abs_le]; constructor <;> linarith

theorem cell_nonneg (n i j : Nat) (hn : 1 ≤ n) (hi1 : n ≤ 2 * i) (hi2 : 2 * i ≤ 3 * n)
    (hj1 : n ≤ 2 * j) (hj2 : 2 * j ≤ 3 * n) :
    0 ≤ reflCell Real.sqrt (400 / (n : ℝ)) ((((2 * n + 1 : Nat) : ℝ) - 1) / 2) i j := by
  rw [reflCell_eq_blend]
  have hn0 : (0 : ℝ) < n := by exact_mod_cast hn
  have hi : |(i : ℝ) - n| ≤ (n : ℝ) / 2 := by
    have h1r : (n : ℝ) ≤ 2 * i := by exact_mod_cast hi1
    have h2r : (2 : ℝ) * i ≤ 3 * n := by exact_mod_cast hi2
    rw [abs_le]; constructor <;> linarith
  have hj : |(j : ℝ) - n| ≤ (n : ℝ) / 2 := by
    have h1r : (n : ℝ) ≤ 2 * j := by exact_mod_cast hj1
    have h2r : (2 : ℝ) * j ≤ 3 * n := by exact_mod_cast hj2
    rw [abs_le]; constructor <;> linarith
  exact blend_nonneg _ _ (scaledOffset_nonneg _ _ _) (scaledOffset_nonneg _ _ _)
    (scaledOffset_le_of n i hn (by omega) 200 _ hi (by linarith))
    (scaledOffset_le_of n j hn (by omega) 200 _ hj (by linarith))

theorem cell_ge_band (n i j : Nat) (hn : 1 ≤ n) (hi1 : n + n / 8 < i)
    (hi2 : i ≤ n + 2 * (n / 8)) (hj1 : n ≤ j + 2 * (n / 8)) (hj2 : j ≤ n + 2 * (n / 8)) :
    0.014 ≤ reflCell Real.sqrt (400 / (n : ℝ)) ((((2 * n + 1 : Nat) : ℝ) - 1) / 2) i j := by
  rw [reflCell_eq_blend]
  have hn0 : (0 : ℝ) < n := by exact_mod_cast hn
  have hh1 : 8 * (n / 8) ≤ n := by omega
  have hh2 : n + 1 ≤ 8 * (n / 8 + 1) := by omega
  have hh1r : (8 : ℝ) * ((n / 8 : Nat) : ℝ) ≤ n := by exact_mod_cast hh1
  have hh2r : (n : ℝ) + 1 ≤ 8 * (((n / 8 : Nat) : ℝ) + 1) := by exact_mod_cast hh2
  have hia : |(i : ℝ) - n| ≤ ((2 * (n / 8) : Nat) : ℝ) :=
    abs_sub_le_of_nat i n _ (by omega) hi2
  have hja : |(j : ℝ) - n| ≤ ((2 * (n / 8) : Nat) : ℝ) :=
    abs_sub_le_of_nat j n _ hj1 hj2
  have hib : ((n / 8 : Nat) : ℝ) + 1 ≤ |(i : ℝ) - n| := by
    have : (n : ℝ) + ((n / 8 : Nat) : ℝ) + 1 ≤ i := by exact_mod_cast hi1
    exact le_trans (by linarith) (le_abs_self _)
  push_cast at hia hja
  exact blend_ge_band _ _
    (scaledOffset_ge_of n i hn (by omega) 50 _ hib (by linarith))
    (scaledOffset_nonneg _ _ _)
    (scaledOffset_le_of n i hn (by omega) 100 _ hia (by linarith))
    (scaledOffset_le_of n j hn (by omega) 100 _ hja (by linarith))

/-- The cells of the kernel of resolution `n ≥ 1` have a positive sum before
normalisation, so that `factor = refl_fraction / sum[0]` is defined. -/
theorem kernel_sum_pos (n : Nat) (hn : 1 ≤ n) :
    0 < ∑ i ∈ range (2 * n + 1), ∑ j ∈ range (2 * n + 1),
        reflCell Real.sqrt (400 / (n : ℝ)) ((((2 * n + 1 : Nat) : ℝ) - 1) / 2) i j := by
  set cell : Nat → Nat → ℝ := fun i j =>
    reflCell Real.sqrt (400 / (n : ℝ)) ((((2 * n + 1 : Nat) : ℝ) - 1) / 2) i j with hcell
  set h := n / 8 with hh
  have hh1 : 8 * h ≤ n := by omega
  have hh2 : n ≤ 8 * h + 7 := by omega
  have hF : ∀ i j, 0 ≤ cell i j + 0.0001 := by
    intro i j
    have := cell_ge_global n i j
    simp only [hcell]
    linarith
  have hG : ∀ i, 0 ≤ ∑ j ∈ range (2 * n + 1), (cell i j + 0.0001) :=
    fun i => Finset.sum_nonneg (fun j _ => hF i j)
  -- the centre row
  have hrow_n : 0.0801 ≤ ∑ j ∈ range (2 * n + 1), (cell n j + 0.0001) := by
    have h1 : cell n n + 0.0001 ≤ ∑ j ∈ range (2 * n + 1), (cell n j + 0.0001) :=
      Finset.single_le_sum (fun j _ => hF n j)
        (Finset.mem_range.2 (by omega))
    have h2 := cell_center n hn
    simp only [hcell] at h1 ⊢
    linarith
  -- the rows of the band
  have hrow_band : ∀ i ∈ Ioc (n + h) (n + 2 * h),
      ((4 * h + 1 : Nat) : ℝ) * 0.0141 ≤ ∑ j ∈ range (2 * n + 1), (cell i j + 0.0001) := by
    intro i hi
    obtain ⟨hi1, hi2⟩ := Finset.mem_Ioc.1 hi
    have hsub : Icc (n - 2 * h) (n + 2 * h) ⊆ range (2 * n + 1) := by
      intro j hj
      have := (Finset.mem_Icc.1 hj).2
      exact Finset.mem_range.2 (by omega)
    have h1 : ∑ j ∈ Icc (n - 2 * h) (n + 2 * h), (cell i j + 0.0001) ≤
        ∑ j ∈ range (2 * n + 1), (cell i j + 0.0001) :=
      Finset.sum_le_sum_of_subset_of_nonneg hsub (fun j _ _ => hF i j)
    have h2 : (Icc (n - 2 * h) (n + 2 * h)).card • (0.0141 : ℝ) ≤
        ∑ j ∈ Icc (n - 2 * h) (n + 2 * h), (cell i j + 0.0001) := by
      apply Finset.card_nsmul_le_sum
      intro j hj
      obtain ⟨hj1, hj2⟩ := Finset.mem_Icc.1 hj
      have := cell_ge_band n i j hn hi1 hi2 (by omega) hj2
      simp only [hcell]
      linarith
    have hcard : (Icc (n - 2 * h) (n + 2 * h)).card = 4 * h + 1 := by
      rw [Nat.card_Icc]; omega
    rw [hcard, nsmul_eq_mul] at h2
    linarith
  have hband : (h : ℝ) * (((4 * h + 1 : Nat) : ℝ) * 0.0141) ≤
      ∑ i ∈ Ioc (n + h) (n + 2 * h), ∑ j ∈ range (2 * n + 1), (cell i j + 0.0001) := by
    have h1 := Finset.card_nsmul_le_sum (Ioc (n + h) (n + 2 * h))
      (fun i => ∑ j ∈ range (2 * n + 1), (cell i j + 0.0001)) _ hrow_band
    have hcard : (Ioc (n + h) (n + 2 * h)).card = h := by
      rw [Nat.card_Ioc]; omega
    rw [hcard, nsmul_eq_mul] at h1
    exact h1
  have hsubT : insert n (Ioc (n + h) (n + 2 * h)) ⊆ range (2 * n + 1) := by
    intro i hi
    rcases Finset.mem_insert.1 hi with rfl | hi
    · exact Finset.mem_range.2 (by omega)
    · have := (Finset.mem_Ioc.1 hi).2
      exact Finset.mem_range.2 (by omega)
  have hnotin : n ∉ Ioc (n + h) (n + 2 * h) := by
    intro hmem
    have := (Finset.mem_Ioc.1 hmem).1
    omega
  have htotal : 0.0801 + (h : ℝ) * (((4 * h + 1 : Nat) : ℝ) * 0.0141) ≤
      ∑ i ∈ range (2 * n + 1), ∑ j ∈ range (2 * n + 1), (cell i j + 0.0001) := by
    have h1 : ∑ i ∈ insert n (Ioc (n + h) (n + 2 * h)),
          ∑ j ∈ range (2 * n + 1), (cell i j + 0.0001) ≤
        ∑ i ∈ range (2 * n + 1), ∑ j ∈ range (2 * n + 1), (cell i j + 0.0001) :=
      Finset.sum_le_sum_of_subset_of_nonneg hsubT (fun i _ _ => hG i)
    rw [Finset.sum_insert hnotin] at h1
    linarith
  have hsplit : ∑ i ∈ range (2 * n + 1), ∑ j ∈ range (2 * n + 1), (cell i j + 0.0001) =
      (∑ i ∈ range (2 * n + 1), ∑ j ∈ range (2 * n + 1), cell i j) +
        ((2 * n + 1 : Nat) : ℝ) * (((2 * n + 1 : Nat) : ℝ) * 0.0001) := by
    simp only [Finset.sum_add_distrib, Finset.sum_const, Finset.card_range, nsmul_eq_mul]
  rw [hsplit] at htotal
  have hnr : (n : ℝ) ≤ 8 * h + 7 := by exact_mod_cast hh2
  have hh0 : (0 : ℝ) ≤ h := by positivity
  have hn0 : (0 : ℝ) ≤ n := by positivity
  push_cast at htotal
  nlinarith [mul_nonneg hh0 hh0, mul_nonneg hn0 hn0, mul_nonneg hn0 hh0,
    mul_nonneg (sub_nonneg.2 hnr) (sub_nonneg.2 hnr), mul_nonneg hn0 (sub_nonneg.2 hnr)]

/-- Past the clamp at 400 both fitted curves take their value at 400, and the cell value
built from them is negative whatever the other offset is. -/
theorem blend_rim_neg (X Y : ℝ) (hX : 0 ≤ X) (hY : 0 ≤ Y) (h : X = 400 ∨ Y = 400) :
    blend Real.sqrt X Y < 0 := by
  have hD : (400 : ℝ) < Real.sqrt (X * X + Y * Y + 0.0000001) := by
    rw [Real.lt_sqrt (by norm_num)]
    rcases h with h | h
    · rw [h]; nlinarith [mul_nonneg hY hY]
    · rw [h]; nlinarith [mul_nonneg hX hX]
  have hfv : fv (1.1 * Real.sqrt (X * X + Y * Y + 0.0000001)) = 0.9574 * 0.06051744 := by
    rw [fv_eq, if_pos (by linarith)]
    simp only [evalLow, fvcLow]
    norm_num
  have hfh : fh (Real.sqrt (X * X + Y * Y + 0.0000001)) = 0.057940736 := by
    rw [fh_eq, if_pos hD]
    simp only [evalLow, fhcLow]
    norm_num
  have hsum : 400 ≤ X + Y := by rcases h with h | h <;> linarith
  have hden : (0 : ℝ) < X + Y + 0.00001 := by linarith
  unfold blend
  simp only []
  rw [if_neg (fun h0 => by linarith [h0.1, h0.2]), hfv, hfh]
  have h1 : 0 ≤ X / (X + Y + 0.00001) := div_nonneg hX (le_of_lt hden)
  have h2 : 0 ≤ Y / (X + Y + 0.00001) := div_nonneg hY (le_of_lt hden)
  have h3 : 0 < X / (X + Y + 0.00001) + Y / (X + Y + 0.00001) := by
    rw [← add_div]
    exact div_pos (by linarith) hden
  have hA : (0.0838 - 0.0838 / 0.0579 * (0.9574 * 0.06051744) : ℝ) < -0.00005 := by norm_num
  have hB : (0.0838 - 0.0838 / 0.0579 * 0.057940736 : ℝ) < -0.00005 := by norm_num
  nlinarith

/-- Every cell on the outermost rows and columns of the kernel of resolution `n` is
negative before normalisation. -/
theorem cell_rim_neg (n i j : Nat) (hn : 1 ≤ n)
    (h : i = 0 ∨ i = 2 * n ∨ j = 0 ∨ j = 2 * n) :
    reflCell Real.sqrt (400 / (n : ℝ)) ((((2 * n + 1 : Nat) : ℝ) - 1) / 2) i j < 0 := by
  rw [reflCell_eq_blend]
  have hn0 : (0 : ℝ) < n := by exact_mod_cast hn
  have e0 : scaledOffset (400 / (n : ℝ)) ((((2 * n + 1 : Nat) : ℝ) - 1) / 2) 0 = 400 := by
    rw [scaledOffset_eq n 0 hn (by omega)]
    simp only [Nat.cast_zero, zero_sub, abs_neg, abs_of_pos hn0]
    field_simp
  have e2 : scaledOffset (400 / (n : ℝ)) ((((2 * n + 1 : Nat) : ℝ) - 1) / 2) (2 * n) = 400 := by
    rw [scaledOffset_eq n (2 * n) hn (by omega)]
    have : ((2 * n : Nat) : ℝ) - n = n := by push_cast; ring
    rw [this, abs_of_pos hn0]
    field_simp
  apply blend_rim_neg _ _ (scaledOffset_nonneg _ _ _) (scaledOffset_nonneg _ _ _)
  rcases h with h | h | h | h
  · left; rw [h]; exact e0
  · left; rw [h]; exact e2
  · right; rw [h]; exact e0
  · right; rw [h]; exact e2

end Kernel

section Claims
open Finset

theorem getReflArea_real (dpi : Int) (h : 1 ≤ dpi) :
    1 ≤ (reflSteps dpi 0).1.toNat ∧
      getReflArea Real.sqrt dpi 0 =
        some (kernelOf Real.sqrt (reflSteps dpi 0).1.toNat, (reflSteps dpi 0).2.2,
          (reflSteps dpi 0).2.1) := by
  have hpos := reflSteps_pos dpi h
  have hn : 1 ≤ (reflSteps dpi 0).1.toNat := by omega
  refine ⟨hn, getReflArea_eq Real.sqrt dpi h ?_⟩
  rw [kernelCells_sum]
  exact ne_of_gt (kernel_sum_pos _ hn)

theorem kernelOf_sum {K : Type} [LinearOrderedField K] (sqrt : K → K) (n : Nat)
    (hS : (kernelCells sqrt n).foldl (fun s x => s + x) 0 ≠ 0) (c : Fin 3) :
    (kernelOf sqrt n).sum c = 0.20 := by
  unfold ArrayRGB.sum kernelOf
  simp only []
  rw [← List.sum_eq_foldl, List.sum_map_mul_right, List.map_id', List.sum_eq_foldl]
  field_simp

theorem kernelOf_get {K : Type} [LinearOrderedField K] (sqrt : K → K) (n i j : Nat)
    (hi : i < 2 * n + 1) (hj : j < 2 * n + 1) (c : Fin 3) :
    (kernelOf sqrt n).get i j c =
      some (reflCell sqrt (400 / (n : K)) ((((2 * n + 1 : Nat) : K) - 1) / 2) i j *
        (0.20 / (kernelCells sqrt n).foldl (fun s x => s + x) 0)) := by
  have hk : i * (2 * n + 1) + j < (2 * n + 1) * (2 * n + 1) := flat_lt hi hj
  rw [get_eq_getElem _ i j c hi hj]
  simp only [kernelOf, kernelCells, List.getElem?_map, List.getElem?_range hk,
    Option.map_some', flat_div hj, flat_mod hj]

theorem scaledOffset_mirror {K : Type} [LinearOrderedField K] (gain : K) (n i : Nat)
    (hi : i < 2 * n + 1) :
    scaledOffset gain ((((2 * n + 1 : Nat) : K) - 1) / 2) (2 * n + 1 - 1 - i) =
      scaledOffset gain ((((2 * n + 1 : Nat) : K) - 1) / 2) i := by
  have e : ((2 * n + 1 - 1 - i : Nat) : K) = 2 * (n : K) - i := by
    have : 2 * n + 1 - 1 - i = 2 * n - i := by omega
    rw [this, Nat.cast_sub (by omega)]
    push_cast
    ring
  have e2 : gain * (((2 * n + 1 - 1 - i : Nat) : K) - (((2 * n + 1 : Nat) : K) - 1) / 2) =
      -(gain * ((i : K) - (((2 * n + 1 : Nat) : K) - 1) / 2)) := by
    rw [e]
    push_cast
    ring
  unfold scaledOffset
  rw [e2, abs_neg]

theorem kernel_factor_pos (n : Nat) (hn : 1 ≤ n) :
    (0 : ℝ) < 0.20 / (kernelCells Real.sqrt n).foldl (fun s x => s + x) 0 := by
  rw [kernelCells_sum]
  exact div_pos (by norm_num) (kernel_sum_pos n hn)

theorem blend_edge_neg : blend Real.sqrt 400 0 < 0 := by
  unfold blend
  simp only []
  rw [if_neg (by norm_num)]
  have hD : (400 : ℝ) ≤ Real.sqrt (400 * 400 + 0 * 0 + 0.0000001) := by
    rw [Real.le_sqrt (by norm_num) (by norm_num)]
    norm_num
  have hfv : fv (1.1 * Real.sqrt (400 * 400 + 0 * 0 + 0.0000001)) = 0.9574 * 0.06051744 := by
    rw [fv_eq, if_pos (by linarith)]
    simp only [evalLow, fvcLow]
    norm_num
  rw [hfv]
  norm_num

/-- C1: for every dpi ≥ 1 with no override, `getReflArea` returns a kernel, and after its
normalisation step the sum of all cells of channel 0 equals 0.20 (`refl_fraction`) in exact
arithmetic. -/
theorem getReflArea_sum_channel0 (dpi : Int) (h : 1 ≤ dpi) :
    ∃ kernel x2 x3, getReflArea Real.sqrt dpi 0 = some (kernel, x2, x3) ∧
      kernel.sum 0 = 0.20 := by
  obtain ⟨hn, heq⟩ := getReflArea_real dpi h
  refine ⟨_, _, _, heq, kernelOf_sum Real.sqrt _ ?_ 0⟩
  rw [kernelCells_sum]
  exact ne_of_gt (kernel_sum_pos _ hn)

/-- Witness of C1 at dpi = 300. -/
theorem getReflArea_sum_channel0_witness :
    (1 : Int) ≤ 300 ∧ ∃ kernel x2 x3,
      getReflArea Real.sqrt 300 0 = some (kernel, x2, x3) ∧ kernel.sum 0 = 0.20 :=
  ⟨by decide, getReflArea_sum_channel0 300 (by decide)⟩

/-- Counterexample to C2: at dpi = 300 the kernel has resolution 50 and its cell
`(0, 50)`, on the outermost row at the centre column where the scaled offset is 400, is
negative. -/
theorem getReflArea_edge_cell_negative :
    ∃ kernel x2 x3 x, getReflArea Real.sqrt 300 0 = some (kernel, x2, x3) ∧
      kernel.get 0 50 0 = some x ∧ x < 0 := by
  obtain ⟨hn, heq⟩ := getReflArea_real 300 (by decide)
  rw [reflSteps_300] at heq hn
  simp only [] at heq hn
  have e50 : (50 : Int).toNat = 50 := rfl
  rw [e50] at heq hn
  refine ⟨_, _, _, _, heq, kernelOf_get Real.sqrt 50 0 50 (by norm_num) (by norm_num) 0, ?_⟩
  apply mul_neg_of_neg_of_pos _ (kernel_factor_pos 50 hn)
  rw [reflCell_eq_blend, scaledOffset_center 50 hn, scaledOffset_eq 50 0 hn (by norm_num)]
  have e : (400 : ℝ) / ((50 : Nat) : ℝ) * |((0 : Nat) : ℝ) - ((50 : Nat) : ℝ)| = 400 := by
    norm_num
  rw [e]
  exact blend_edge_neg

/-- C2 (amended): for every dpi ≥ 1 with no override, every cell of the kernel returned by
`getReflArea` exists, the centre cell is positive, every cell is at least `-0.00125` times
the centre cell, every cell at most half the kernel resolution away from the centre in both
row and column is non-negative, and every cell on the outermost rows and columns, where the
scaled offset reaches 400, is negative. -/
theorem getReflArea_cells_lower (dpi : Int) (h : 1 ≤ dpi) :
    ∃ kernel x2 x3 ctr, getReflArea Real.sqrt dpi 0 = some (kernel, x2, x3) ∧
      (∀ i j c, i < kernel.nr → j < kernel.nc → ∃ x, kernel.get i j c = some x) ∧
      (∀ c, kernel.get (kernel.nr / 2) (kernel.nc / 2) c = some ctr) ∧ 0 < ctr ∧
      (∀ i j c x, kernel.get i j c = some x → -0.00125 * ctr ≤ x) ∧
      (∀ i j c x, kernel.get i j c = some x →
        kernel.dpi ≤ 2 * (i : Int) → 2 * (i : Int) ≤ 3 * kernel.dpi →
        kernel.dpi ≤ 2 * (j : Int) → 2 * (j : Int) ≤ 3 * kernel.dpi → 0 ≤ x) ∧
      (∀ i j c x, kernel.get i j c = some x →
        i = 0 ∨ i + 1 = kernel.nr ∨ j = 0 ∨ j + 1 = kernel.nc → x < 0) := by
  obtain ⟨hn, heq⟩ := getReflArea_real dpi h
  generalize (reflSteps dpi 0).1.toNat = n at hn heq
  have hf := kernel_factor_pos n hn
  have hc := cell_center n hn
  have hmid : (2 * n + 1) / 2 = n := by omega
  have hget : ∀ i j c x, (kernelOf Real.sqrt n).get i j c = some x →
      i < 2 * n + 1 ∧ j < 2 * n + 1 ∧
        x = reflCell Real.sqrt (400 / (n : ℝ)) ((((2 * n + 1 : Nat) : ℝ) - 1) / 2) i j *
          (0.20 / (kernelCells Real.sqrt n).foldl (fun s x => s + x) 0) := by
    intro i j c x hx
    have hij : i < 2 * n + 1 ∧ j < 2 * n + 1 := by
      by_contra hcon
      unfold ArrayRGB.get at hx
      have hcon2 : ¬ (i < (kernelOf Real.sqrt n).nr ∧ j < (kernelOf Real.sqrt n).nc) := hcon
      rw [if_neg hcon2] at hx
      exact Option.noConfusion hx
    rw [kernelOf_get Real.sqrt n i j hij.1 hij.2 c] at hx
    exact ⟨hij.1, hij.2, (Option.some.inj hx).symm⟩
  refine ⟨_, _, _, _, heq, ?_, ?_, mul_pos (by linarith) hf, ?_, ?_, ?_⟩
  · intro i j c hi hj
    exact ⟨_, kernelOf_get Real.sqrt n i j hi hj c⟩
  · intro c
    show (kernelOf Real.sqrt n).get ((2 * n + 1) / 2) ((2 * n + 1) / 2) c = _
    rw [hmid]
    exact kernelOf_get Real.sqrt n n n (by omega) (by omega) c
  · intro i j c x hx
    obtain ⟨_, _, rfl⟩ := hget i j c x hx
    have hg := cell_ge_global n i j
    nlinarith
  · intro i j c x hx hi1 hi2 hj1 hj2
    obtain ⟨_, _, rfl⟩ := hget i j c x hx
    have hd : (kernelOf Real.sqrt n).dpi = (n : Int) := rfl
    rw [hd] at hi1 hi2 hj1 hj2
    exact mul_nonneg (cell_nonneg n i j hn (by omega) (by omega) (by omega) (by omega))
      (le_of_lt hf)
  · intro i j c x hx hrim
    obtain ⟨_, _, rfl⟩ := hget i j c x hx
    have hknr : (kernelOf Real.sqrt n).nr = 2 * n + 1 := rfl
    have hknc : (kernelOf Real.sqrt n).nc = 2 * n + 1 := rfl
    rw [hknr, hknc] at hrim
    exact mul_neg_of_neg_of_pos (cell_rim_neg n i j hn (by omega)) hf

/-- Witness of the amended C2 at dpi = 300. -/
theorem getReflArea_cells_lower_witness :
    (1 : Int) ≤ 300 ∧
    ∃ kernel x2 x3 ctr, getReflArea Real.sqrt 300 0 = some (kernel, x2, x3) ∧
      (∀ i j c, i < kernel.nr → j < kernel.nc → ∃ x, kernel.get i j c = some x) ∧
      (∀ c, kernel.get (kernel.nr / 2) (kernel.nc / 2) c = some ctr) ∧ 0 < ctr ∧
      (∀ i j c x, kernel.get i j c = some x → -0.00125 * ctr ≤ x) ∧
      (∀ i j c x, kernel.get i j c = some x →
        kernel.dpi ≤ 2 * (i : Int) → 2 * (i : Int) ≤ 3 * kernel.dpi →
        kernel.dpi ≤ 2 * (j : Int) → 2 * (j : Int) ≤ 3 * kernel.dpi → 0 ≤ x) ∧
      (∀ i j c x, kernel.get i j c = some x →
        i = 0 ∨ i + 1 = kernel.nr ∨ j = 0 ∨ j + 1 = kernel.nc → x < 0) :=
  ⟨by decide, getReflArea_cells_lower 300 (by decide)⟩

/-- C3: for every dpi ≥ 1 with no override, the kernel returned by `getReflArea` is square
of size `2 * kernelResolution + 1` and point-symmetric: in every channel the cells `(i, j)`
and `(size-1-i, size-1-j)` hold the same value. -/
theorem getReflArea_point_symmetric (dpi : Int) (h : 1 ≤ dpi) :
    ∃ kernel x2 x3, getReflArea Real.sqrt dpi 0 = some (kernel, x2, x3) ∧
      (kernel.nr : Int) = 2 * kernel.dpi + 1 ∧ kernel.nc = kernel.nr ∧
      ∀ i j c, i < kernel.nr → j < kernel.nr →
        ∃ x, kernel.get i j c = some x ∧
          kernel.get (kernel.nr - 1 - i) (kernel.nr - 1 - j) c = some x := by
  obtain ⟨hn, heq⟩ := getReflArea_real dpi h
  generalize (reflSteps dpi 0).1.toNat = n at hn heq
  refine ⟨_, _, _, heq, ?_, rfl, ?_⟩
  · show ((2 * n + 1 : Nat) : Int) = 2 * (n : Int) + 1
    push_cast
    rfl
  · intro i j c hi hj
    have hi2 : i < 2 * n + 1 := hi
    have hj2 : j < 2 * n + 1 := hj
    refine ⟨_, kernelOf_get Real.sqrt n i j hi2 hj2 c, ?_⟩
    show (kernelOf Real.sqrt n).get (2 * n + 1 - 1 - i) (2 * n + 1 - 1 - j) c = _
    rw [kernelOf_get Real.sqrt n _ _ (by omega) (by omega) c, reflCell_eq_blend,
      reflCell_eq_blend, scaledOffset_mirror _ n i hi2, scaledOffset_mirror _ n j hj2]

/-- Witness of C3 at dpi = 75. -/
theorem getReflArea_point_symmetric_witness :
    (1 : Int) ≤ 75 ∧
    ∃ kernel x2 x3, getReflArea Real.sqrt 75 0 = some (kernel, x2, x3) ∧
      (kernel.nr : Int) = 2 * kernel.dpi + 1 ∧ kernel.nc = kernel.nr ∧
      ∀ i j c, i < kernel.nr → j < kernel.nr →
        ∃ x, kernel.get i j c = some x ∧
          kernel.get (kernel.nr - 1 - i) (kernel.nr - 1 - j) c = some x :=
  ⟨by decide, getReflArea_point_symmetric 75 (by decide)⟩

/-- Counterexample to C4: at dpi = 150 one divide-by-3 step and no divide-by-2 step are
taken, and the tuple returned has second component 0 and third component 1, not `(1, 0)`. -/
theorem getReflArea_150_order :
    reflSteps 150 0 = (50, 1, 0) ∧
      (∃ kernel, getReflArea Real.sqrt 150 0 = some (kernel, 0, 1)) ∧
      ¬ ∃ kernel, getReflArea Real.sqrt 150 0 = some (kernel, 1, 0) := by
  obtain ⟨_, heq⟩ := getReflArea_real 150 (by decide)
  rw [reflSteps_150] at heq
  refine ⟨reflSteps_150, ⟨_, heq⟩, ?_⟩
  rintro ⟨k, hk⟩
  rw [heq] at hk
  have := congrArg (fun r => r.map (fun t => t.2.1)) hk
  simp at this

/-- C4 (amended): for every dpi ≥ 1 with no override, `getReflArea` returns the triple
`(kernel, x2, x3)`: the kernel at the reduced resolution, then the number of divide-by-2
steps, then the number of divide-by-3 steps (taken first, while the working resolution is
≥ 90 and divisible by 3; the divide-by-2 steps after them, while ≥ 60 and divisible by 2);
dpi = 150 returns (kernel at 50 dpi, 0, 1) and dpi = 200 returns (kernel at 50 dpi, 2, 0). -/
theorem getReflArea_tuple_order :
    (∀ dpi : Int, 1 ≤ dpi → ∃ kernel,
      getReflArea Real.sqrt dpi 0 =
          some (kernel, (div2Loop (div3Loop dpi 0).1 0).2, (div3Loop dpi 0).2) ∧
        kernel.dpi = (div2Loop (div3Loop dpi 0).1 0).1) ∧
    (∃ kernel, getReflArea Real.sqrt 150 0 = some (kernel, 0, 1) ∧ kernel.dpi = 50) ∧
    (∃ kernel, getReflArea Real.sqrt 200 0 = some (kernel, 2, 0) ∧ kernel.dpi = 50) := by
  have hdpi : ∀ dpi : Int, 1 ≤ dpi →
      (kernelOf Real.sqrt (reflSteps dpi 0).1.toNat).dpi = (reflSteps dpi 0).1 := by
    intro dpi h
    have hpos := reflSteps_pos dpi h
    show (((reflSteps dpi 0).1.toNat : Nat) : Int) = _
    omega
  refine ⟨?_, ?_, ?_⟩
  · intro dpi h
    obtain ⟨_, heq⟩ := getReflArea_real dpi h
    refine ⟨_, heq, ?_⟩
    rw [hdpi dpi h]
    simp [reflSteps]
  · obtain ⟨_, heq⟩ := getReflArea_real 150 (by decide)
    have hd := hdpi 150 (by decide)
    rw [reflSteps_150] at heq hd
    exact ⟨_, heq, hd⟩
  · obtain ⟨_, heq⟩ := getReflArea_real 200 (by decide)
    have hd := hdpi 200 (by decide)
    rw [reflSteps_200] at heq hd
    exact ⟨_, heq, hd⟩

end Claims

section Estimate
set_option linter.unusedSectionVars false
variable {K : Type} [LinearOrderedField K]
open Finset

theorem forLoop_sum (n : Nat) (body : Nat → K → Option K) (G : Nat → K)
    (hb : ∀ j, j < n → ∀ s, body j s = some (s + G j)) (s0 : K) :
    forLoop n body s0 = some (s0 + ∑ j ∈ range n, G j) := by
  induction n with
  | zero => simp [forLoop]
  | succ n ih =>
    rw [forLoop_succ, ih (fun j hj s => hb j (Nat.lt_succ_of_lt hj) s)]
    simp only [Option.some_bind]
    rw [hb n (Nat.lt_succ_self n), Finset.sum_range_succ, add_assoc]

theorem get_eq_val (a : ArrayRGB K) (hwf : a.WF) (r c : Nat) (color : Fin 3)
    (hr : r < a.nr) (hc : c < a.nc) : a.get r c color = some (a.val r c color) := by
  have hk : r * a.nc + c < (a.v color).length := by
    rw [hwf color]; exact flat_lt hr hc
  unfold ArrayRGB.val
  rw [get_eq_getElem a r c color hr hc, List.getElem?_eq_getElem hk]
  rfl

theorem windowSum_eq (img ker : ArrayRGB K) (hi : img.WF) (hk : ker.WF) (i ii : Nat)
    (color : Fin 3) (hr : i + ker.nr ≤ img.nr) (hc : ii + ker.nc ≤ img.nc) :
    windowSum img ker i ii color =
      some (∑ j ∈ range ker.nr, ∑ jj ∈ range ker.nc,
        img.val (i + j) (ii + jj) color * ker.val j jj color) := by
  unfold windowSum
  rw [forLoop_sum ker.nr _ (fun j => ∑ jj ∈ range ker.nc,
    img.val (i + j) (ii + jj) color * ker.val j jj color), zero_add]
  intro j hj s
  apply forLoop_sum
  intro jj hjj s'
  rw [get_eq_val img hi (i + j) (ii + jj) color (by omega) (by omega),
    get_eq_val ker hk j jj color hj hjj]
  rfl

theorem fixCell_cellBody (img ker a : ArrayRGB K) (hi : img.WF) (hk : ker.WF)
    (color : Fin 3) (R C : Nat) (hR : R ≤ a.nr) (hC : C ≤ a.nc)
    (hr : R + ker.nr ≤ img.nr + 1) (hc : C + ker.nc ≤ img.nc + 1) :
    CellBody a R C (fixCell img ker color)
      (fun i ii col x => if col = color then
        ∑ j ∈ range ker.nr, ∑ jj ∈ range ker.nc,
          img.val (i + j) (ii + jj) color * ker.val j jj color else x) := by
  intro b i ii hnr hnc hlen hiR hiiC
  have hi2 : i < b.nr := by omega
  have hii2 : ii < b.nc := by omega
  unfold fixCell
  rw [windowSum_eq img ker hi hk i ii color (by omega) (by omega)]
  simp only [Option.some_bind]
  rw [set_eq_some b i ii color _ hi2 hii2 (by rw [hlen, hnr, hnc])]
  simp only [ArrayRGB.modifyAt, ← hnc]
  congr 2
  funext col
  apply List.ext_getElem?
  intro n
  rw [List.getElem?_modify]
  by_cases hcol : col = color
  · rw [hcol]
    simp only [Function.update_same, List.getElem?_set, if_true]
    have hkk : i * b.nc + ii < (b.v color).length := by
      rw [hlen, ← hnr, ← hnc]; exact flat_lt hi2 hii2
    by_cases hn : i * b.nc + ii = n
    · rw [← hn, List.getElem?_eq_getElem hkk]
      simp [hkk]
    · simp only [hn, if_false]
      cases (b.v color)[n]? <;> simp
  · simp only [Function.update_noteq hcol, if_neg hcol]
    cases (b.v col)[n]? <;> simp

theorem fix_eq (img ker a : ArrayRGB K) (hi : img.WF) (hk : ker.WF) (ha : a.WF)
    (color : Fin 3) (R C : Nat) (hR : R ≤ a.nr) (hC : C ≤ a.nc)
    (hr : R + ker.nr ≤ img.nr + 1) (hc : C + ker.nc ≤ img.nc + 1)
    (hCeq : ((img.nc : Int) - ker.nc + 1).toNat = C) :
    fix img ker 0 (R : Int) color a =
      some (a.progress C R 0 (fun i ii col x => if col = color then
        ∑ j ∈ range ker.nr, ∑ jj ∈ range ker.nc,
          img.val (i + j) (ii + jj) color * ker.val j jj color else x)) := by
  unfold fix
  have e : ((R : Int) - ((0 : Nat) : Int)).toNat = R := by simp
  rw [e, hCeq]
  simp only [Nat.zero_add]
  exact forLoop_rect a R C (fixCell img ker color) _ hC ha
    (fixCell_cellBody img ker a hi hk color R C hR hC hr hc) R (le_refl R)

theorem progress_get (a : ArrayRGB K) (C R : Nat) (f : Nat → Nat → Fin 3 → K → K)
    (i ii : Nat) (c : Fin 3) (hi : i < a.nr) (hii : ii < a.nc) :
    (a.progress C R 0 f).get i ii c =
      (a.get i ii c).map (fun x => if i < R ∧ ii < C then f i ii c x else x) := by
  have h1 : (a.progress C R 0 f).nr = a.nr := rfl
  have h2 : (a.progress C R 0 f).nc = a.nc := rfl
  rw [get_eq_getElem _ i ii c (by rw [h1]; exact hi) (by rw [h2]; exact hii),
    get_eq_getElem a i ii c hi hii, h2]
  simp only [ArrayRGB.progress, List.getElem?_mapIdx, flat_div hii, flat_mod hii]
  have hv : visited C R 0 i ii ↔ (i < R ∧ ii < C) := by
    unfold visited
    omega
  simp only [hv]

theorem progress_wf (a : ArrayRGB K) (ha : a.WF) (C R : Nat)
    (f : Nat → Nat → Fin 3 → K → K) : (a.progress C R 0 f).WF := by
  intro c
  simp only [ArrayRGB.progress, List.length_mapIdx]
  exact ha c

theorem create_eq (nr nc : Nat) (dpi : Int) (f16 : Bool) (g : K) (inr inc : Int)
    (h1 : inr = (nr : Int)) (h2 : inc = (nc : Int)) :
    ArrayRGB.create inr inc dpi f16 g =
      some (ArrayRGB.mk nr nc dpi f16 g (fun _ => List.replicate (nr * nc) 0)) := by
  subst h1 h2
  unfold ArrayRGB.create
  rw [if_pos ⟨Int.natCast_nonneg _, Int.natCast_nonneg _⟩]
  simp only [Int.toNat_ofNat]

/-- The value of `generate_reflected_light_estimate` when the kernel has
`2 * image_reduced.dpi + 1` rows and columns and fits in the image. -/
theorem generate_spec (img ker : ArrayRGB K) (hi : img.WF) (hk : ker.WF)
    (hnr : (ker.nr : Int) = 2 * img.dpi + 1) (hnc : (ker.nc : Int) = 2 * img.dpi + 1)
    (hr : ker.nr ≤ img.nr) (hc : ker.nc ≤ img.nc) :
    ∃ out, generate_reflected_light_estimate img ker = some out ∧
      out.nr = img.nr - ker.nr + 1 ∧ out.nc = img.nc - ker.nc + 1 ∧
      ∀ i ii c, i < out.nr → ii < out.nc →
        out.get i ii c = some (∑ j ∈ range ker.nr, ∑ jj ∈ range ker.nc,
          img.val (i + j) (ii + jj) c * ker.val j jj c) := by
  set R := img.nr - ker.nr + 1 with hRdef
  set C := img.nc - ker.nc + 1 with hCdef
  have hcreate := create_eq R C img.dpi img.from_16bits img.gamma
    ((img.nr : Int) - 2 * img.dpi) ((img.nc : Int) - 2 * img.dpi) (by omega) (by omega)
  generalize ha0 : ArrayRGB.mk R C img.dpi img.from_16bits img.gamma
    (fun _ => List.replicate (R * C) 0) = a0 at hcreate
  have hnr0 : a0.nr = R := by rw [← ha0]
  have hnc0 : a0.nc = C := by rw [← ha0]
  have hwf0 : a0.WF := by intro c; rw [← ha0]; simp
  have hRe : ((img.nr : Int) - ker.nr + 1) = (R : Int) := by omega
  have hCe : ((img.nc : Int) - ker.nc + 1).toNat = C := by omega
  set W : Fin 3 → Nat → Nat → Fin 3 → K → K := fun color i ii col x =>
    if col = color then ∑ j ∈ range ker.nr, ∑ jj ∈ range ker.nc,
      img.val (i + j) (ii + jj) color * ker.val j jj color else x with hW
  have hfix : ∀ (color : Fin 3) (a : ArrayRGB K), a.WF → a.nr = R → a.nc = C →
      fix img ker 0 (R : Int) color a = some (a.progress C R 0 (W color)) := by
    intro color a ha h1 h2
    exact fix_eq img ker a hi hk ha color R C (by omega) (by omega) (by omega) (by omega) hCe
  unfold generate_reflected_light_estimate
  rw [hcreate, hRe]
  simp only [Option.some_bind]
  rw [hfix 0 a0 hwf0 hnr0 hnc0]
  simp only [Option.some_bind]
  rw [hfix 1 _ (progress_wf a0 hwf0 C R _) hnr0 hnc0]
  simp only [Option.some_bind]
  rw [hfix 2 _ (progress_wf _ (progress_wf a0 hwf0 C R _) C R _) hnr0 hnc0]
  refine ⟨_, rfl, hnr0, hnc0, ?_⟩
  intro i ii c hi2 hii2
  have hi3 : i < a0.nr := hi2
  have hii3 : ii < a0.nc := hii2
  have hi4 : i < R := by rw [← hnr0]; exact hi3
  have hii4 : ii < C := by rw [← hnc0]; exact hii3
  rw [progress_get ((a0.progress C R 0 (W 0)).progress C R 0 (W 1)) C R (W 2) i ii c hi3 hii3,
    progress_get (a0.progress C R 0 (W 0)) C R (W 1) i ii c hi3 hii3,
    progress_get a0 C R (W 0) i ii c hi3 hii3, get_eq_val a0 hwf0 i ii c hi3 hii3]
  simp only [Option.map_some', hi4, hii4, and_self, if_true, hW]
  fin_cases c <;> simp

end Estimate

section Correction

/-- Counterexample to C8: on the uniform value 0.5 both round trips end more than `1e-3`
away from 0.5. -/
theorem roundTrip_not_within_1e3 :
    ¬ (|correctThenSimulate (0.5 : ℚ) - 0.5| ≤ 0.001) ∧
      ¬ (|simulateThenCorrect (0.5 : ℚ) - 0.5| ≤ 0.001) := by
  constructor
  · simp only [correctThenSimulate, correctSample, clamp]
    norm_num [abs_le]
  · simp only [simulateThenCorrect, correctSample, clamp]
    norm_num [abs_le]

/-- C8 (amended): on a uniform 0.5 image, the normal-mode update (gain restore enabled)
followed by the simulate-mode update, or the two in the reverse order, each pass with the
correction value 0.20 times its own uniform input, returns a value within `5e-3` of 0.5,
and no pass clamps. -/
theorem roundTrip_within_5e3 :
    |correctThenSimulate (0.5 : ℚ) - 0.5| ≤ 0.005 ∧
      |simulateThenCorrect (0.5 : ℚ) - 0.5| ≤ 0.005 ∧
      correctThenSimulate (0.5 : ℚ) =
        ((0.5 - 0.1 * 0.5) * (0.876 / 0.785) +
          0.20 * ((0.5 - 0.1 * 0.5) * (0.876 / 0.785)) *
            ((0.5 - 0.1 * 0.5) * (0.876 / 0.785))) * (0.785 / 0.876) ∧
      simulateThenCorrect (0.5 : ℚ) =
        ((0.5 + 0.1 * 0.5) * (0.785 / 0.876) -
          0.20 * ((0.5 + 0.1 * 0.5) * (0.785 / 0.876)) *
            ((0.5 + 0.1 * 0.5) * (0.785 / 0.876))) * (0.876 / 0.785) := by
  refine ⟨?_, ?_, ?_, ?_⟩
  · simp only [correctThenSimulate, correctSample, clamp]
    norm_num [abs_le]
  · simp only [simulateThenCorrect, correctSample, clamp]
    norm_num [abs_le]
  · simp only [correctThenSimulate, correctSample, clamp]
    norm_num
  · simp only [simulateThenCorrect, correctSample, clamp]
    norm_num

/-- Counterexample to C9: for the original value 0.5 and the correction value 0.1 the
change with gain restore disabled (0.05) is larger than the change with gain restore
enabled. -/
theorem gain_restore_change_counterexample :
    ¬ (|correctSample false true (0.5 : ℚ) 0.1 - 0.5| <
        |correctSample false false (0.5 : ℚ) 0.1 - 0.5|) := by
  have ha : correctSample false true (0.5 : ℚ) 0.1 = 0.45 := by
    simp only [correctSample, clamp]
    norm_num
  have hb : correctSample false false (0.5 : ℚ) 0.1 = 0.45 * 876 / 785 := by
    simp only [correctSample, clamp]
    norm_num
  rw [ha, hb, abs_of_nonpos (by norm_num), abs_of_nonneg (by norm_num)]
  norm_num

theorem correctSample_no_gain (x c : ℚ) :
    correctSample false true x c = clamp (x - c * x) 0 1 := by
  simp only [correctSample, Bool.false_eq_true, if_false, if_true]
  norm_num

theorem correctSample_gain (x c : ℚ) :
    correctSample false false x c = clamp ((x - c * x) * (876 / 785)) 0 1 := by
  simp only [correctSample, Bool.false_eq_true, if_false]
  norm_num

theorem clamp_of_nonpos (t : ℚ) (h : t ≤ 0) : clamp t 0 1 = 0 := by
  unfold clamp
  split_ifs with h1 h2
  · rfl
  · linarith
  · linarith

theorem clamp_of_mem (t : ℚ) (h0 : 0 ≤ t) (h1 : t ≤ 1) : clamp t 0 1 = t := by
  unfold clamp
  rw [if_neg (not_lt.2 h0), if_neg (not_lt.2 h1)]

theorem clamp_of_gt (t : ℚ) (h1 : 1 < t) : clamp t 0 1 = 1 := by
  unfold clamp
  rw [if_neg (by linarith), if_pos h1]

/-- C9 (amended): for every original value `x` in `[0, 1]` and correction value `c > 0`, in
normal mode the change with gain restore disabled, `|clamp(x - c*x) - x|`, is strictly
smaller than the change with gain restore enabled, `|clamp((x - c*x)*0.876/0.785) - x|`,
exactly when `x > 0`, `c < 91/1661` and `x * (1 + c) < 1`. -/
theorem gain_restore_change_iff (x c : ℚ) (hx0 : 0 ≤ x) (hx1 : x ≤ 1) (hc : 0 < c) :
    |correctSample false true x c - x| < |correctSample false false x c - x| ↔
      (0 < x ∧ c < 91 / 1661 ∧ x * (1 + c) < 1) := by
  rw [correctSample_no_gain, correctSample_gain]
  rcases eq_or_lt_of_le hx0 with hx | hx
  · -- x = 0
    subst hx
    simp [clamp]
  rcases le_or_lt 1 c with hc1 | hc1
  · -- c ≥ 1: both updates clamp to 0
    have ht : x - c * x ≤ 0 := by nlinarith
    rw [clamp_of_nonpos _ ht, clamp_of_nonpos _ (by nlinarith)]
    constructor
    · intro h; exact absurd h (lt_irrefl _)
    · rintro ⟨_, h2, _⟩
      have : (91 : ℚ) / 1661 < 1 := by norm_num
      linarith
  · -- 0 < c < 1
    have ht0 : 0 < x - c * x := by nlinarith
    have ht1 : x - c * x ≤ 1 := by nlinarith
    rw [clamp_of_mem _ (le_of_lt ht0) ht1]
    have hA : |x - c * x - x| = c * x := by
      rw [abs_of_nonpos (by nlinarith)]
      ring
    rw [hA]
    rcases le_or_lt ((x - c * x) * (876 / 785)) 1 with hg | hg
    · rw [clamp_of_mem _ (by nlinarith) hg]
      have hx1c : x * (1 + c) < 1 ∨ ¬ c < 91 / 1661 := by
        by_cases h : c < 91 / 1661
        · left
          have e : (x - c * x) * (876 / 785) - x * (1 + c) = x * (91 / 785 - c * (1661 / 785)) := by
            ring
          have : 0 < x * (91 / 785 - c * (1661 / 785)) := by
            apply mul_pos hx
            have : c * (1661 / 785) < 91 / 1661 * (1661 / 785) :=
              mul_lt_mul_of_pos_right h (by norm_num)
            have e2 : (91 : ℚ) / 1661 * (1661 / 785) = 91 / 785 := by norm_num
            linarith
          linarith
        · right; exact h
      constructor
      · intro h
        rw [lt_abs] at h
        have hcc : c < 91 / 1661 := by
          rcases h with h | h
          · have e : (x - c * x) * (876 / 785) - x - c * x =
                x * (91 / 785 - c * (1661 / 785)) := by ring
            have hpos : 0 < x * (91 / 785 - c * (1661 / 785)) := by linarith
            have h3 : 0 < 91 / 785 - c * (1661 / 785) := by
              by_contra hneg
              have := mul_nonpos_of_nonneg_of_nonpos (le_of_lt hx) (not_lt.1 hneg)
              linarith
            have e2 : (91 : ℚ) / 785 = 91 / 1661 * (1661 / 785) := by norm_num
            rw [e2] at h3
            have h4 : c * (1661 / 785) < 91 / 1661 * (1661 / 785) := by linarith
            exact lt_of_mul_lt_mul_right h4 (by norm_num)
          · have e : -((x - c * x) * (876 / 785) - x) - c * x =
                x * ((c - 1) * (91 / 785)) := by ring
            have hneg : x * ((c - 1) * (91 / 785)) < 0 := by
              apply mul_neg_of_pos_of_neg hx
              apply mul_neg_of_neg_of_pos (by linarith) (by norm_num)
            linarith
        rcases hx1c with h5 | h5
        · exact ⟨hx, hcc, h5⟩
        · exact absurd hcc h5
      · rintro ⟨_, hcc, _⟩
        rw [lt_abs]
        left
        have e : (x - c * x) * (876 / 785) - x - c * x =
            x * (91 / 785 - c * (1661 / 785)) := by ring
        have hpos : 0 < x * (91 / 785 - c * (1661 / 785)) := by
          apply mul_pos hx
          have : c * (1661 / 785) < 91 / 1661 * (1661 / 785) :=
            mul_lt_mul_of_pos_right hcc (by norm_num)
          have e2 : (91 : ℚ) / 1661 * (1661 / 785) = 91 / 785 := by norm_num
          linarith
        linarith
    · rw [clamp_of_gt _ hg]
      have hB : |1 - x| = 1 - x := abs_of_nonneg (by linarith)
      rw [hB]
      have hcc : c < 91 / 1661 ∨ ¬ x * (1 + c) < 1 := by
        by_cases h : x * (1 + c) < 1
        · left
          -- x (1 - c) g > 1 > x (1 + c)
          have e : (x - c * x) * (876 / 785) - x * (1 + c) =
              x * (91 / 785 - c * (1661 / 785)) := by ring
          have hpos : 0 < x * (91 / 785 - c * (1661 / 785)) := by linarith
          have h3 : 0 < 91 / 785 - c * (1661 / 785) := by
            by_contra hneg
            have := mul_nonpos_of_nonneg_of_nonpos (le_of_lt hx) (not_lt.1 hneg)
            linarith
          have e2 : (91 : ℚ) / 785 = 91 / 1661 * (1661 / 785) := by norm_num
          rw [e2] at h3
          have h4 : c * (1661 / 785) < 91 / 1661 * (1661 / 785) := by linarith
          exact lt_of_mul_lt_mul_right h4 (by norm_num)
        · right; exact h
      constructor
      · intro h
        have h5 : x * (1 + c) < 1 := by linarith
        rcases hcc with h6 | h6
        · exact ⟨hx, h6, h5⟩
        · exact absurd h5 h6
      · rintro ⟨_, _, h5⟩
        linarith

/-- Witness of the amended C9 at `x = 0.5`, `c = 0.01`. -/
theorem gain_restore_change_iff_witness :
    |correctSample false true (0.5 : ℚ) 0.01 - 0.5| <
        |correctSample false false (0.5 : ℚ) 0.01 - 0.5| ↔
      ((0 : ℚ) < 0.5 ∧ (0.01 : ℚ) < 91 / 1661 ∧ (0.5 : ℚ) * (1 + 0.01) < 1) :=
  gain_restore_change_iff 0.5 0.01 (by norm_num) (by norm_num) (by norm_num)

end Correction

section WhitePoint
set_option linter.unusedSectionVars false
variable {K : Type} [LinearOrderedField K]

theorem percentileHigh_isSome (l : List K) (h : 0 < l.length) :
    ∃ high, percentileHigh l = some high := by
  unfold percentileHigh
  simp only []
  have hlen : (l.insertionSort (fun a b => a ≤ b)).length = l.length :=
    List.length_insertionSort _ l
  have hk : (l.insertionSort (fun a b => a ≤ b)).length -
      (1 + (l.insertionSort (fun a b => a ≤ b)).length / 10000) <
      (l.insertionSort (fun a b => a ≤ b)).length := by
    rw [hlen]; omega
  exact ⟨_, List.getElem?_eq_getElem hk⟩

theorem percentileHigh_map (l : List K) (f : K) (hf : 0 < f) :
    percentileHigh (l.map fun x => x * f) = (percentileHigh l).map fun x => x * f := by
  unfold percentileHigh
  simp only []
  have hs : (l.map fun x => x * f).insertionSort (fun a b => a ≤ b) =
      (l.insertionSort (fun a b => a ≤ b)).map fun x => x * f := by
    symm
    apply List.map_insertionSort
    intro a _ b _
    exact (mul_le_mul_right hf).symm
  rw [hs, List.length_map, List.getElem?_map]

theorem maxcolor_eq (image : ArrayRGB K) (h0 h1 h2 : K)
    (e0 : percentileHigh (image.v 0) = some h0) (e1 : percentileHigh (image.v 1) = some h1)
    (e2 : percentileHigh (image.v 2) = some h2) :
    maxcolor image = some (max (max (max 0 h0) h1) h2) := by
  have step : ∀ h m : K, (if h > m then h else m) = max m h := by
    intro h m
    rw [max_def]
    split_ifs with a b b
    · rfl
    · exact absurd (le_of_lt a) b
    · exact le_antisymm b (not_lt.1 a)
    · rfl
  have f0 : (⟨0, by decide⟩ : Fin 3) = 0 := rfl
  have f1 : (⟨1, by decide⟩ : Fin 3) = 1 := rfl
  have f2 : (⟨2, by decide⟩ : Fin 3) = 2 := rfl
  simp only [maxcolor, forLoop, Option.some_bind, Nat.lt_irrefl, dite_true,
    show (0 : Nat) < 3 from by decide, show (1 : Nat) < 3 from by decide,
    show (2 : Nat) < 3 from by decide, f0, f1, f2, e0, e1, e2, Option.map_some', step]

end WhitePoint

section ClaimsEstimate
open Finset

/-- Counterexample to C5: a 5 × 5 image with dpi field 1 and a 5 × 5 kernel (which fits in
the image) give a plane of 3 × 3, the extents less twice the dpi field, not the valid-mode
size 1 × 1. -/
theorem generate_size_follows_dpi :
    ((generate_reflected_light_estimate (ArrayRGB.const 5 5 1 (1 / 2 : ℚ))
        (ArrayRGB.const 5 5 2 (1 / 25 : ℚ))).map fun out => (out.nr, out.nc)) = some (3, 3) ∧
      ¬ ∃ out, generate_reflected_light_estimate (ArrayRGB.const 5 5 1 (1 / 2 : ℚ))
          (ArrayRGB.const 5 5 2 (1 / 25 : ℚ)) = some out ∧
        out.nr = 5 - 5 + 1 ∧ out.nc = 5 - 5 + 1 := by
  have h : ((generate_reflected_light_estimate (ArrayRGB.const 5 5 1 (1 / 2 : ℚ))
      (ArrayRGB.const 5 5 2 (1 / 25 : ℚ))).map fun out => (out.nr, out.nc)) = some (3, 3) := by
    decide!
  refine ⟨h, ?_⟩
  rintro ⟨out, ho, h1, _⟩
  rw [ho] at h
  simp only [Option.map_some', Option.some.injEq, Prod.mk.injEq] at h
  omega

/-- C5 (amended): for every well-formed reduced image and kernel with
`kernel.rows = kernel.cols = 2 * image.dpi + 1`, `kernel.rows ≤ image.rows` and
`kernel.cols ≤ image.cols`, `generate_reflected_light_estimate` returns a plane with
exactly `image.rows - kernel.rows + 1` rows and `image.cols - kernel.cols + 1` columns, the
extents `image.rows - 2 * image.dpi` and `image.cols - 2 * image.dpi` it allocates. -/
theorem generate_size {K : Type} [LinearOrderedField K] (img ker : ArrayRGB K) (hi : img.WF)
    (hk : ker.WF) (hnr : (ker.nr : Int) = 2 * img.dpi + 1)
    (hnc : (ker.nc : Int) = 2 * img.dpi + 1) (hr : ker.nr ≤ img.nr) (hc : ker.nc ≤ img.nc) :
    ∃ out, generate_reflected_light_estimate img ker = some out ∧
      out.nr = img.nr - ker.nr + 1 ∧ out.nc = img.nc - ker.nc + 1 ∧
      (out.nr : Int) = img.nr - 2 * img.dpi ∧ (out.nc : Int) = img.nc - 2 * img.dpi := by
  obtain ⟨out, h1, h2, h3, _⟩ := generate_spec img ker hi hk hnr hnc hr hc
  exact ⟨out, h1, h2, h3, by omega, by omega⟩

/-- Witness of the amended C5: a 5 × 5 image with dpi field 1 and a 3 × 3 kernel. -/
theorem generate_size_witness :
    ∃ out, generate_reflected_light_estimate (ArrayRGB.const 5 5 1 (1 / 2 : ℚ))
        (ArrayRGB.const 3 3 1 (1 / 9 : ℚ)) = some out ∧
      out.nr = 5 - 3 + 1 ∧ out.nc = 5 - 3 + 1 ∧
      (out.nr : Int) = (5 : Nat) - 2 * 1 ∧ (out.nc : Int) = (5 : Nat) - 2 * 1 :=
  generate_size (ArrayRGB.const 5 5 1 (1 / 2 : ℚ)) (ArrayRGB.const 3 3 1 (1 / 9 : ℚ))
    (by intro c; simp [ArrayRGB.const]) (by intro c; simp [ArrayRGB.const])
    (by decide) (by decide) (by decide) (by decide)

end ClaimsEstimate

section ClaimsWhite

/-- Counterexample to C10: on the all-zero 1 × 1 plane `maxcolor` is 0, the factor
`1 / maxcolor` has a zero denominator and the white-point step yields no plane. -/
theorem adjustToDetectedWhite_zero_plane :
    maxcolor (ArrayRGB.const 1 1 300 (0 : ℚ)) = some 0 ∧
      adjustToDetectedWhite (ArrayRGB.const 1 1 300 (0 : ℚ)) = none := by
  have h : maxcolor (ArrayRGB.const 1 1 300 (0 : ℚ)) = some 0 := by decide!
  refine ⟨h, ?_⟩
  unfold adjustToDetectedWhite
  rw [h]
  rfl

/-- C10 (amended): for every non-empty well-formed plane in which the selected percentile
sample of at least one channel is positive, the white-point step picks per channel the
sorted sample at index `size - 1 - size / 10000`, `maxcolor` is the largest of the three and
positive, all samples are scaled by `1 / maxcolor`, and afterwards the maximum over the
three channels of that same percentile sample equals 1. -/
theorem adjustToDetectedWhite_spec {K : Type} [LinearOrderedField K] (image : ArrayRGB K)
    (hwf : image.WF) (hne : 0 < image.nr * image.nc)
    (hpos : ∃ c high, percentileHigh (image.v c) = some high ∧ 0 < high) :
    ∃ m out, maxcolor image = some m ∧ 0 < m ∧
      (∀ c, ∃ high, percentileHigh (image.v c) = some high ∧ high ≤ m ∧
        ((image.v c).insertionSort (fun a b => a ≤ b))[(image.v c).length - 1 -
          (image.v c).length / 10000]? = some high) ∧
      adjustToDetectedWhite image = some out ∧
      (∀ c, out.v c = (image.v c).map fun x => x * (1 / m)) ∧
      maxcolor out = some 1 := by
  have hlen : ∀ c, 0 < (image.v c).length := fun c => by rw [hwf c]; exact hne
  obtain ⟨h0, e0⟩ := percentileHigh_isSome _ (hlen 0)
  obtain ⟨h1, e1⟩ := percentileHigh_isSome _ (hlen 1)
  obtain ⟨h2, e2⟩ := percentileHigh_isSome _ (hlen 2)
  have hm := maxcolor_eq image h0 h1 h2 e0 e1 e2
  set m := max (max (max 0 h0) h1) h2 with hmdef
  have hle0 : h0 ≤ m := le_trans (le_max_right 0 h0) (le_trans (le_max_left _ h1) (le_max_left _ h2))
  have hle1 : h1 ≤ m := le_trans (le_max_right _ h1) (le_max_left _ h2)
  have hle2 : h2 ≤ m := le_max_right _ h2
  have hmpos : 0 < m := by
    obtain ⟨c, high, hc, hhigh⟩ := hpos
    fin_cases c
    · have : percentileHigh (image.v 0) = some high := hc
      rw [e0] at this
      have := Option.some.inj this
      linarith
    · have : percentileHigh (image.v 1) = some high := hc
      rw [e1] at this
      have := Option.some.inj this
      linarith
    · have : percentileHigh (image.v 2) = some high := hc
      rw [e2] at this
      have := Option.some.inj this
      linarith
  have hf : 0 < 1 / m := one_div_pos.2 hmpos
  have hidx : ∀ c, (image.v c).length - 1 - (image.v c).length / 10000 =
      ((image.v c).insertionSort (fun a b => a ≤ b)).length -
        (1 + ((image.v c).insertionSort (fun a b => a ≤ b)).length / 10000) := by
    intro c
    rw [List.length_insertionSort]
    omega
  refine ⟨m, image.scale (1 / m), hm, hmpos, ?_, ?_, fun c => rfl, ?_⟩
  · intro c
    fin_cases c
    · exact ⟨h0, e0, hle0, by rw [hidx]; exact e0⟩
    · exact ⟨h1, e1, hle1, by rw [hidx]; exact e1⟩
    · exact ⟨h2, e2, hle2, by rw [hidx]; exact e2⟩
  · unfold adjustToDetectedWhite
    rw [hm]
    simp only [Option.some_bind]
    rw [if_neg (ne_of_gt hmpos)]
  · have s0 : percentileHigh ((image.scale (1 / m)).v 0) = some (h0 * (1 / m)) := by
      show percentileHigh ((image.v 0).map fun x => x * (1 / m)) = _
      rw [percentileHigh_map _ _ hf, e0]
      rfl
    have s1 : percentileHigh ((image.scale (1 / m)).v 1) = some (h1 * (1 / m)) := by
      show percentileHigh ((image.v 1).map fun x => x * (1 / m)) = _
      rw [percentileHigh_map _ _ hf, e1]
      rfl
    have s2 : percentileHigh ((image.scale (1 / m)).v 2) = some (h2 * (1 / m)) := by
      show percentileHigh ((image.v 2).map fun x => x * (1 / m)) = _
      rw [percentileHigh_map _ _ hf, e2]
      rfl
    rw [maxcolor_eq _ _ _ _ s0 s1 s2]
    have hz : (0 : K) = 0 * (1 / m) := by ring
    have hscale : ∀ a b : K, max (a * (1 / m)) (b * (1 / m)) = max a b * (1 / m) :=
      fun a b => (max_mul_of_nonneg a b (le_of_lt hf)).symm
    rw [hz, hscale, hscale, hscale, ← hmdef]
    congr 1
    field_simp

/-- Witness of the amended C10: the 1 × 2 plane holding 1/4 and 1/2 in every channel. -/
theorem adjustToDetectedWhite_spec_witness :
    ∃ m out, maxcolor (ArrayRGB.mk 1 2 300 false (1 : ℚ) (fun _ => [1 / 4, 1 / 2])) = some m ∧
      0 < m ∧
      (∀ c, ∃ high,
        percentileHigh ((ArrayRGB.mk 1 2 300 false (1 : ℚ) (fun _ => [1 / 4, 1 / 2])).v c) =
          some high ∧ high ≤ m ∧
        (((ArrayRGB.mk 1 2 300 false (1 : ℚ) (fun _ => [1 / 4, 1 / 2])).v c).insertionSort
          (fun a b => a ≤ b))[((ArrayRGB.mk 1 2 300 false (1 : ℚ)
            (fun _ => [1 / 4, 1 / 2])).v c).length - 1 -
          ((ArrayRGB.mk 1 2 300 false (1 : ℚ) (fun _ => [1 / 4, 1 / 2])).v c).length / 10000]? =
            some high) ∧
      adjustToDetectedWhite (ArrayRGB.mk 1 2 300 false (1 : ℚ) (fun _ => [1 / 4, 1 / 2])) =
        some out ∧
      (∀ c, out.v c =
        ((ArrayRGB.mk 1 2 300 false (1 : ℚ) (fun _ => [1 / 4, 1 / 2])).v c).map
          fun x => x * (1 / m)) ∧
      maxcolor out = some 1 :=
  adjustToDetectedWhite_spec (ArrayRGB.mk 1 2 300 false (1 : ℚ) (fun _ => [1 / 4, 1 / 2]))
    (by intro c; rfl) (by decide) ⟨0, 1 / 2, by decide!, by norm_num⟩

end ClaimsWhite

section Steps

theorem div3Loop_inv (a : Int) (x : Nat) :
    (div3Loop a x).1 * 3 ^ (div3Loop a x).2 = a * 3 ^ x ∧ x ≤ (div3Loop a x).2 ∧
      (x < (div3Loop a x).2 → 30 ≤ (div3Loop a x).1) := by
  induction a, x using div3Loop.induct with
  | case1 a x hc ih =>
    rw [div3Loop, dif_pos hc]
    obtain ⟨h1, h2, h3⟩ := ih
    have h0 : (0 : Int) ≤ a := by omega
    have hm : a % 3 = 0 := by
      rw [← Int.tmod_eq_emod h0 (by decide)]; exact hc.2
    have hd : a.tdiv 3 = a / 3 := Int.tdiv_eq_ediv h0 (by decide)
    have hmul : a / 3 * 3 = a := by omega
    refine ⟨?_, by omega, ?_⟩
    · rw [h1, hd, pow_succ]
      calc a / 3 * (3 ^ x * 3) = (a / 3 * 3) * 3 ^ x := by ring
        _ = a * 3 ^ x := by rw [hmul]
    · intro _
      rcases Nat.lt_or_ge (x + 1) (div3Loop (a.tdiv 3) (x + 1)).2 with hlt | hge
      · exact h3 hlt
      · have heq : (div3Loop (a.tdiv 3) (x + 1)).2 = x + 1 := by omega
        rw [heq] at h1
        have hpos : (0 : Int) < 3 ^ (x + 1) := by positivity
        have := mul_right_cancel₀ (ne_of_gt hpos) h1
        rw [this, hd]
        omega
  | case2 a x hc =>
    rw [div3Loop, dif_neg hc]
    exact ⟨rfl, le_refl _, fun h => absurd h (lt_irrefl _)⟩

theorem div2Loop_inv (a : Int) (x : Nat) :
    (div2Loop a x).1 * 2 ^ (div2Loop a x).2 = a * 2 ^ x ∧ x ≤ (div2Loop a x).2 ∧
      (x < (div2Loop a x).2 → 30 ≤ (div2Loop a x).1) := by
  induction a, x using div2Loop.induct with
  | case1 a x hc ih =>
    rw [div2Loop, dif_pos hc]
    obtain ⟨h1, h2, h3⟩ := ih
    have h0 : (0 : Int) ≤ a := by omega
    have hm : a % 2 = 0 := by
      rw [← Int.tmod_eq_emod h0 (by decide)]; exact hc.2
    have hd : a.tdiv 2 = a / 2 := Int.tdiv_eq_ediv h0 (by decide)
    have hmul : a / 2 * 2 = a := by omega
    refine ⟨?_, by omega, ?_⟩
    · rw [h1, hd, pow_succ]
      calc a / 2 * (2 ^ x * 2) = (a / 2 * 2) * 2 ^ x := by ring
        _ = a * 2 ^ x := by rw [hmul]
    · intro _
      rcases Nat.lt_or_ge (x + 1) (div2Loop (a.tdiv 2) (x + 1)).2 with hlt | hge
      · exact h3 hlt
      · have heq : (div2Loop (a.tdiv 2) (x + 1)).2 = x + 1 := by omega
        rw [heq] at h1
        have hpos : (0 : Int) < 2 ^ (x + 1) := by positivity
        have := mul_right_cancel₀ (ne_of_gt hpos) h1
        rw [this, hd]
        omega
  | case2 a x hc =>
    rw [div2Loop, dif_neg hc]
    exact ⟨rfl, le_refl _, fun h => absurd h (lt_irrefl _)⟩

/-- The step selection never raises the resolution and keeps
`dpi = res * 3 ^ x3 * 2 ^ x2`. -/
theorem reflSteps_inv (dpi : Int) (h : 1 ≤ dpi) :
    dpi = (reflSteps dpi 0).1 * 3 ^ (reflSteps dpi 0).2.1 * 2 ^ (reflSteps dpi 0).2.2 ∧
      1 ≤ (reflSteps dpi 0).1 ∧
      (0 < (reflSteps dpi 0).2.1 + (reflSteps dpi 0).2.2 → 30 ≤ (reflSteps dpi 0).1) := by
  have hpos := reflSteps_pos dpi h
  obtain ⟨a1, a2, a3⟩ := div3Loop_inv dpi 0
  obtain ⟨b1, b2, b3⟩ := div2Loop_inv (div3Loop dpi 0).1 0
  have hp2 := div2Loop_pos (div3Loop dpi 0).1 0 (div3Loop_pos dpi 0 h)
  simp only [pow_zero, mul_one] at a1 b1
  have e1 : (reflSteps dpi 0).1 = (div2Loop (div3Loop dpi 0).1 0).1 := by simp [reflSteps]
  have e2 : (reflSteps dpi 0).2.1 = (div3Loop dpi 0).2 := by simp [reflSteps]
  have e3 : (reflSteps dpi 0).2.2 = (div2Loop (div3Loop dpi 0).1 0).2 := by simp [reflSteps]
  rw [e1, e2, e3]
  refine ⟨?_, hp2, ?_⟩
  · calc dpi = (div3Loop dpi 0).1 * 3 ^ (div3Loop dpi 0).2 := a1.symm
      _ = (div2Loop (div3Loop dpi 0).1 0).1 * 2 ^ (div2Loop (div3Loop dpi 0).1 0).2 *
            3 ^ (div3Loop dpi 0).2 := by rw [b1]
      _ = _ := by ring
  · intro hsum
    rcases Nat.eq_zero_or_pos (div2Loop (div3Loop dpi 0).1 0).2 with hz | hp
    · rw [hz, pow_zero, mul_one] at b1
      rw [b1]
      exact a3 (by omega)
    · exact b3 hp

end Steps

section Reduction

theorem downsampleLoop_exact (ext : Nat → Nat → Nat → Nat × Nat)
    (hext : ∀ r c f, f ∣ r → f ∣ c → ext r c f = (r / f, c / f)) (f : Nat) (hf : 0 < f)
    (x r c : Nat) (hr : f ^ x ∣ r) (hc : f ^ x ∣ c) :
    (downsampleLoop ext f x (r, c)).1 = (r / f ^ x, c / f ^ x) ∧
      ∀ call ∈ (downsampleLoop ext f x (r, c)).2, call.2.2 ∣ call.1 ∧ call.2.2 ∣ call.2.1 := by
  induction x generalizing r c with
  | zero => simp [downsampleLoop]
  | succ x ih =>
    have hfr : f ∣ r := Dvd.dvd.trans (dvd_pow_self f (Nat.succ_ne_zero x)) hr
    have hfc : f ∣ c := Dvd.dvd.trans (dvd_pow_self f (Nat.succ_ne_zero x)) hc
    have hr2 : f ^ x ∣ r / f := by
      obtain ⟨q, rfl⟩ := hr
      rw [pow_succ, Nat.mul_assoc, Nat.mul_comm f q, ← Nat.mul_assoc, Nat.mul_div_cancel _ hf]
      exact Nat.dvd_mul_right _ _
    have hc2 : f ^ x ∣ c / f := by
      obtain ⟨q, rfl⟩ := hc
      rw [pow_succ, Nat.mul_assoc, Nat.mul_comm f q, ← Nat.mul_assoc, Nat.mul_div_cancel _ hf]
      exact Nat.dvd_mul_right _ _
    obtain ⟨h1, h2⟩ := ih (r / f) (c / f) hr2 hc2
    simp only [downsampleLoop, hext r c f hfr hfc]
    refine ⟨?_, ?_⟩
    · rw [h1, Nat.div_div_eq_div_mul, Nat.div_div_eq_div_mul, pow_succ, Nat.mul_comm f]
    · intro call hcall
      rcases List.mem_cons.1 hcall with rfl | hmem
      · exact ⟨hfr, hfc⟩
      · exact h2 call hmem

theorem downsampleLoop_conv (ext : Nat → Nat → Nat → Nat × Nat)
    (hext : ∀ r c f, f ∣ r → f ∣ c → ext r c f = (r / f, c / f)) (f : Nat)
    (x r c : Nat)
    (hall : ∀ call ∈ (downsampleLoop ext f x (r, c)).2,
      call.2.2 ∣ call.1 ∧ call.2.2 ∣ call.2.1) :
    f ^ x ∣ r ∧ f ^ x ∣ c := by
  induction x generalizing r c with
  | zero => simp
  | succ x ih =>
    simp only [downsampleLoop] at hall
    obtain ⟨hfr, hfc⟩ := hall (r, c, f) (List.mem_cons_self _ _)
    simp only at hfr hfc
    rw [hext r c f hfr hfc] at hall
    obtain ⟨h1, h2⟩ := ih (r / f) (c / f) (fun call hm => hall call (List.mem_cons_of_mem _ hm))
    constructor
    · obtain ⟨q, hq⟩ := h1
      refine ⟨q, ?_⟩
      rw [← Nat.div_mul_cancel hfr, hq, pow_succ]
      ring
    · obtain ⟨q, hq⟩ := h2
      refine ⟨q, ?_⟩
      rw [← Nat.div_mul_cancel hfc, hq, pow_succ]
      ring

theorem downsampleLoop_length (ext : Nat → Nat → Nat → Nat × Nat) (f x : Nat) (e : Nat × Nat) :
    (downsampleLoop ext f x e).2.length = x := by
  induction x generalizing e with
  | zero => rfl
  | succ x ih => simp [downsampleLoop, ih]

theorem mul_dvd_iff_dvd_div (a b D : Nat) (ha : 0 < a) :
    (a ∣ D ∧ b ∣ D / a) ↔ a * b ∣ D := by
  constructor
  · rintro ⟨⟨q, rfl⟩, h2⟩
    rw [Nat.mul_div_cancel_left _ ha] at h2
    exact Nat.mul_dvd_mul_left a h2
  · intro h
    have h1 : a ∣ D := Dvd.dvd.trans (Nat.dvd_mul_right a b) h
    refine ⟨h1, ?_⟩
    obtain ⟨q, rfl⟩ := h
    rw [Nat.mul_assoc, Nat.mul_div_cancel_left _ ha]
    exact Nat.dvd_mul_right _ _

/-- The calls of the two loops receive exact multiples of their factor exactly when both
starting extents are multiples of `3 ^ x3 * 2 ^ x2`. -/
theorem two_loops_iff (ext : Nat → Nat → Nat → Nat × Nat)
    (hext : ∀ r c f, f ∣ r → f ∣ c → ext r c f = (r / f, c / f)) (x3 x2 r c : Nat) :
    (∀ call ∈ (downsampleLoop ext 3 x3 (r, c)).2 ++
        (downsampleLoop ext 2 x2 (downsampleLoop ext 3 x3 (r, c)).1).2,
      call.2.2 ∣ call.1 ∧ call.2.2 ∣ call.2.1) ↔
      (3 ^ x3 * 2 ^ x2 ∣ r ∧ 3 ^ x3 * 2 ^ x2 ∣ c) := by
  have h3 : 0 < 3 ^ x3 := by positivity
  constructor
  · intro hall
    obtain ⟨a1, a2⟩ := downsampleLoop_conv ext hext 3 x3 r c
      (fun call hm => hall call (List.mem_append_left _ hm))
    have e := (downsampleLoop_exact ext hext 3 (by decide) x3 r c a1 a2).1
    rw [e] at hall
    obtain ⟨b1, b2⟩ := downsampleLoop_conv ext hext 2 x2 _ _
      (fun call hm => hall call (List.mem_append_right _ hm))
    exact ⟨(mul_dvd_iff_dvd_div _ _ r h3).1 ⟨a1, b1⟩, (mul_dvd_iff_dvd_div _ _ c h3).1 ⟨a2, b2⟩⟩
  · rintro ⟨hr, hc⟩
    obtain ⟨a1, b1⟩ := (mul_dvd_iff_dvd_div _ _ r h3).2 hr
    obtain ⟨a2, b2⟩ := (mul_dvd_iff_dvd_div _ _ c h3).2 hc
    obtain ⟨e, hcalls⟩ := downsampleLoop_exact ext hext 3 (by decide) x3 r c a1 a2
    intro call hm
    rcases List.mem_append.1 hm with h | h
    · exact hcalls call h
    · rw [e] at h
      exact (downsampleLoop_exact ext hext 2 (by decide) x2 _ _ b1 b2).2 call h

end Reduction

section ClaimsReduction

theorem getReflArea_steps (dpi : Int) (h : 1 ≤ dpi) :
    ∃ (n x2 x3 : Nat), 1 ≤ n ∧
      getReflArea Real.sqrt dpi 0 = some (kernelOf Real.sqrt n, x2, x3) ∧
      dpi = (n : Int) * 3 ^ x3 * 2 ^ x2 ∧ (0 < x3 + x2 → 30 ≤ n) := by
  obtain ⟨hn, heq⟩ := getReflArea_real dpi h
  obtain ⟨h1, h2, h3⟩ := reflSteps_inv dpi h
  have hcast : (((reflSteps dpi 0).1.toNat : Nat) : Int) = (reflSteps dpi 0).1 := by omega
  refine ⟨_, _, _, hn, heq, ?_, ?_⟩
  · rw [hcast]; exact h1
  · intro hs
    have := h3 hs
    omega

/-- Counterexample to C11: for a 100 × 100 input at dpi = 300 a divide-by-3 step is taken,
the first call `downsample(image_reduced, 3)` receives the padded extents 700 × 700, and 700
is not a multiple of 3. -/
theorem mainDownsampleCalls_not_multiple :
    ∃ kernel x2 x3, getReflArea Real.sqrt 300 0 = some (kernel, x2, x3) ∧ 0 < x3 ∧
      ∀ ext : Nat → Nat → Nat → Nat × Nat, ∃ calls,
        mainDownsampleCalls ext 100 100 300 x2 x3 = some calls ∧
          (100 + 2 * 300, 100 + 2 * 300, 3) ∈ calls ∧ ¬ 3 ∣ 100 + 2 * 300 := by
  obtain ⟨_, heq⟩ := getReflArea_real 300 (by decide)
  rw [reflSteps_300] at heq
  refine ⟨_, _, _, heq, by decide, ?_⟩
  intro ext
  refine ⟨_, rfl, ?_, by decide⟩
  simp [downsampleLoop]

/-- C11 (amended): for every input image with `nr` rows, `nc` columns and resolution
dpi ≥ 1, and a `downsample` that returns the extents divided by the factor on exact
multiples, every `downsample` call made by `main` receives row and column counts that are
exact multiples of its factor exactly when `nr` and `nc` are multiples of
`3 ^ x3 * 2 ^ x2`; the padded extent `nr + 2 * dpi` (likewise `nc + 2 * dpi`) is divisible
by 3 when a divide-by-3 step is taken exactly when `nr` is, and by 2 when only divide-by-2
steps are taken exactly when `nr` is. -/
theorem mainDownsampleCalls_multiples (nr nc : Nat) (dpi : Int) (h : 1 ≤ dpi)
    (ext : Nat → Nat → Nat → Nat × Nat)
    (hext : ∀ r c f, f ∣ r → f ∣ c → ext r c f = (r / f, c / f)) :
    ∃ kernel x2 x3 calls, getReflArea Real.sqrt dpi 0 = some (kernel, x2, x3) ∧
      mainDownsampleCalls ext nr nc dpi x2 x3 = some calls ∧ calls.length = x3 + x2 ∧
      ((∀ call ∈ calls, call.2.2 ∣ call.1 ∧ call.2.2 ∣ call.2.1) ↔
        (3 ^ x3 * 2 ^ x2 ∣ nr ∧ 3 ^ x3 * 2 ^ x2 ∣ nc)) ∧
      (0 < x3 → (((3 : Int) ∣ nr + 2 * dpi ↔ (3 : Int) ∣ nr) ∧
        ((3 : Int) ∣ nc + 2 * dpi ↔ (3 : Int) ∣ nc))) ∧
      (x3 = 0 → 0 < x2 → (((2 : Int) ∣ nr + 2 * dpi ↔ (2 : Int) ∣ nr) ∧
        ((2 : Int) ∣ nc + 2 * dpi ↔ (2 : Int) ∣ nc))) := by
  obtain ⟨n, x2, x3, hn, heq, hdpi, _⟩ := getReflArea_steps dpi h
  have hRn : (3 ^ x3 * 2 ^ x2 : Nat) ∣ 2 * (n * 3 ^ x3 * 2 ^ x2) :=
    ⟨2 * n, by ring⟩
  have hD : ∀ m : Nat, ((m : Int) + 2 * dpi).toNat = m + 2 * (n * 3 ^ x3 * 2 ^ x2) := by
    intro m
    rw [hdpi]
    have : (m : Int) + 2 * ((n : Int) * 3 ^ x3 * 2 ^ x2) =
        ((m + 2 * (n * 3 ^ x3 * 2 ^ x2) : Nat) : Int) := by push_cast; ring
    rw [this, Int.toNat_ofNat]
  have hcalls : mainDownsampleCalls ext nr nc dpi x2 x3 =
      some ((downsampleLoop ext 3 x3 (nr + 2 * (n * 3 ^ x3 * 2 ^ x2),
          nc + 2 * (n * 3 ^ x3 * 2 ^ x2))).2 ++
        (downsampleLoop ext 2 x2 (downsampleLoop ext 3 x3 (nr + 2 * (n * 3 ^ x3 * 2 ^ x2),
          nc + 2 * (n * 3 ^ x3 * 2 ^ x2))).1).2) := by
    unfold mainDownsampleCalls
    rw [if_pos (by constructor <;> omega), hD nr, hD nc]
  refine ⟨_, _, _, _, heq, hcalls, ?_, ?_, ?_, ?_⟩
  · rw [List.length_append, downsampleLoop_length, downsampleLoop_length]
  · rw [two_loops_iff ext hext, Nat.dvd_add_left hRn, Nat.dvd_add_left hRn]
  · intro h3
    have h3d : (3 : Int) ∣ 2 * dpi := by
      rw [hdpi]
      obtain ⟨k, rfl⟩ : ∃ k, x3 = k + 1 := ⟨x3 - 1, by omega⟩
      exact ⟨2 * (n : Int) * 3 ^ k * 2 ^ x2, by rw [pow_succ]; ring⟩
    exact ⟨(Int.dvd_add_left h3d), (Int.dvd_add_left h3d)⟩
  · intro _ _
    have h2d : (2 : Int) ∣ 2 * dpi := ⟨dpi, rfl⟩
    exact ⟨(Int.dvd_add_left h2d), (Int.dvd_add_left h2d)⟩

/-- Witness of the amended C11: a 600 × 900 input at dpi = 300 with the spec's
`downsample` extents. -/
theorem mainDownsampleCalls_multiples_witness :
    ∃ kernel x2 x3 calls, getReflArea Real.sqrt 300 0 = some (kernel, x2, x3) ∧
      mainDownsampleCalls (fun r c f => (r / f, c / f)) 600 900 300 x2 x3 = some calls ∧
      calls.length = x3 + x2 ∧
      ((∀ call ∈ calls, call.2.2 ∣ call.1 ∧ call.2.2 ∣ call.2.1) ↔
        (3 ^ x3 * 2 ^ x2 ∣ 600 ∧ 3 ^ x3 * 2 ^ x2 ∣ 900)) ∧
      (0 < x3 → (((3 : Int) ∣ (600 : Nat) + 2 * 300 ↔ (3 : Int) ∣ (600 : Nat)) ∧
        ((3 : Int) ∣ (900 : Nat) + 2 * 300 ↔ (3 : Int) ∣ (900 : Nat)))) ∧
      (x3 = 0 → 0 < x2 → (((2 : Int) ∣ (600 : Nat) + 2 * 300 ↔ (2 : Int) ∣ (600 : Nat)) ∧
        ((2 : Int) ∣ (900 : Nat) + 2 * 300 ↔ (2 : Int) ∣ (900 : Nat)))) :=
  mainDownsampleCalls_multiples 600 900 300 (by decide) (fun r c f => (r / f, c / f))
    (fun _ _ _ _ _ => rfl)

/-- C14: for every dpi ≥ 1 with no override, the step-selection loops of `getReflArea`
terminate with a kernel resolution `res` and step counts `x3`, `x2` such that
`dpi = res * 3 ^ x3 * 2 ^ x2`, `res ≥ 1`, and `res ≥ 30` whenever `x3 + x2 > 0`; the
divisor of `reduction = dpi / res` in `main` is not zero and the quotient is
`3 ^ x3 * 2 ^ x2` exactly. -/
theorem getReflArea_steps_factor (dpi : Int) (h : 1 ≤ dpi) :
    ∃ kernel x2 x3, getReflArea Real.sqrt dpi 0 = some (kernel, x2, x3) ∧
      (kernel.dpi, x3, x2) = reflSteps dpi 0 ∧
      dpi = kernel.dpi * 3 ^ x3 * 2 ^ x2 ∧ 1 ≤ kernel.dpi ∧
      (0 < x3 + x2 → 30 ≤ kernel.dpi) ∧
      mainReduction dpi kernel.dpi = some (3 ^ x3 * 2 ^ x2) := by
  obtain ⟨hn, heq⟩ := getReflArea_real dpi h
  obtain ⟨h1, h2, h3⟩ := reflSteps_inv dpi h
  have hcast : (kernelOf Real.sqrt (reflSteps dpi 0).1.toNat).dpi = (reflSteps dpi 0).1 := by
    show (((reflSteps dpi 0).1.toNat : Nat) : Int) = _
    omega
  refine ⟨_, _, _, heq, ?_, ?_, ?_, ?_, ?_⟩
  · rw [hcast]
  · rw [hcast]; exact h1
  · rw [hcast]; exact h2
  · rw [hcast]; exact h3
  · rw [hcast]
    unfold mainReduction
    rw [if_neg (by omega), Int.tdiv_eq_ediv (by omega) (by omega)]
    congr 1
    have hpos : (reflSteps dpi 0).1 ≠ 0 := by omega
    calc dpi / (reflSteps dpi 0).1
        = ((reflSteps dpi 0).1 * (3 ^ (reflSteps dpi 0).2.1 * 2 ^ (reflSteps dpi 0).2.2)) /
            (reflSteps dpi 0).1 := by rw [← mul_assoc, ← h1]
      _ = 3 ^ (reflSteps dpi 0).2.1 * 2 ^ (reflSteps dpi 0).2.2 :=
          Int.mul_ediv_cancel_left _ hpos

/-- Witness of C14 at dpi = 600. -/
theorem getReflArea_steps_factor_witness :
    ∃ kernel x2 x3, getReflArea Real.sqrt 600 0 = some (kernel, x2, x3) ∧
      (kernel.dpi, x3, x2) = reflSteps 600 0 ∧
      (600 : Int) = kernel.dpi * 3 ^ x3 * 2 ^ x2 ∧ 1 ≤ kernel.dpi ∧
      (0 < x3 + x2 → 30 ≤ kernel.dpi) ∧
      mainReduction 600 kernel.dpi = some (3 ^ x3 * 2 ^ x2) :=
  getReflArea_steps_factor 600 (by decide)

end ClaimsReduction

section Encoder
set_option linter.unusedSectionVars false
variable {K : Type} [LinearOrderedField K] [FloorRing K]
open Finset

theorem encodeTmp_mem (pow : K → K → K) (g x : K) :
    0 ≤ encodeTmp pow g x ∧ encodeTmp pow g x ≤ 255 := by
  unfold encodeTmp
  simp only []
  split_ifs with h1 h2 h3
  · exact ⟨le_refl _, by norm_num⟩
  · exact ⟨by norm_num, le_refl _⟩
  · exact ⟨le_refl _, by norm_num⟩
  · exact ⟨not_lt.1 h3, not_lt.1 h1⟩

theorem encodeTmp_eq_min (pow : K → K → K) (g x : K) (h : 0 ≤ pow x g) :
    encodeTmp pow g x = min 255 (255 * pow x g) := by
  have h0 : (0 : K) ≤ 255 * pow x g := mul_nonneg (by norm_num) h
  unfold encodeTmp
  simp only []
  split_ifs with h1 h2 h3
  · exact absurd h2 (by norm_num)
  · rw [min_eq_left (le_of_lt h1)]
  · exact absurd h3 (not_lt.2 h0)
  · rw [min_eq_right (not_lt.1 h1)]

/-- The rounded byte `tmpr` of a value `tmp` in `[0, 255]`. -/
theorem toUint8_round (t : K) (h0 : 0 ≤ t) (h1 : t ≤ 255) :
    toUint8 (t + 0.5) ≤ 255 ∧ (toUint8 (t + 0.5) : K) ≤ t + 0.5 ∧
      t + 0.5 < (toUint8 (t + 0.5) : K) + 1 := by
  have hf0 : 0 ≤ Int.floor (t + 0.5) := Int.floor_nonneg.2 (by norm_num; linarith)
  have hle : ((Int.floor (t + 0.5) : Int) : K) ≤ t + 0.5 := Int.floor_le _
  have hlt : t + 0.5 < ((Int.floor (t + 0.5) : Int) : K) + 1 := Int.lt_floor_add_one _
  have hf1 : Int.floor (t + 0.5) < 256 := by
    have : ((Int.floor (t + 0.5) : Int) : K) < ((256 : Int) : K) := by
      push_cast
      norm_num at hle ⊢
      linarith
    exact_mod_cast this
  have hnat : ((Int.toNat (Int.floor (t + 0.5)) : Nat) : Int) = Int.floor (t + 0.5) :=
    Int.toNat_of_nonneg hf0
  have hmod : toUint8 (t + 0.5) = Int.toNat (Int.floor (t + 0.5)) := by
    unfold toUint8
    apply Nat.mod_eq_of_lt
    omega
  have hcast : (toUint8 (t + 0.5) : K) = ((Int.floor (t + 0.5) : Int) : K) := by
    rw [hmod, ← hnat]
    push_cast
    rw [hnat]
  refine ⟨by rw [hmod]; omega, by rw [hcast]; exact hle, by rw [hcast]; exact hlt⟩

/-- One iteration of the encoder from a residual in `[-0.5, 0.5]`. -/
theorem encodeStep_spec (pow : K → K → K) (cols : Nat) (g : K) (i : Nat) (x resid : K)
    (hr : -0.5 ≤ startResid cols i resid ∧ startResid cols i resid ≤ 0.5) :
    (-0.5 ≤ (encodeStep pow cols g i x resid).1 ∧ (encodeStep pow cols g i x resid).1 ≤ 0.5) ∧
      (pendingResid pow cols g i x resid < -0.5 → 1 ≤ toUint8 (encodeTmp pow g x + 0.5)) ∧
      (pendingResid pow cols g i x resid > 0.5 → toUint8 (encodeTmp pow g x + 0.5) < 255) ∧
      (encodeStep pow cols g i x resid).2 ≤ 255 ∧
      (encodeStep pow cols g i x resid).1 =
        startResid cols i resid +
          (encodeTmp pow g x - ((encodeStep pow cols g i x resid).2 : K)) := by
  obtain ⟨ht0, ht1⟩ := encodeTmp_mem pow g x
  obtain ⟨hb, hle, hlt⟩ := toUint8_round (encodeTmp pow g x) ht0 ht1
  have hdec : pendingResid pow cols g i x resid < -0.5 →
      1 ≤ toUint8 (encodeTmp pow g x + 0.5) := by
    intro hp
    by_contra hz
    have hz0 : toUint8 (encodeTmp pow g x + 0.5) = 0 := by omega
    unfold pendingResid at hp
    rw [hz0] at hp
    norm_num at hp hr
    linarith [hr.1]
  have hinc : pendingResid pow cols g i x resid > 0.5 →
      toUint8 (encodeTmp pow g x + 0.5) < 255 := by
    intro hp
    by_contra hz
    have hz0 : toUint8 (encodeTmp pow g x + 0.5) = 255 := by omega
    unfold pendingResid at hp
    rw [hz0] at hp
    norm_num at hp hr
    linarith [hr.2]
  have hpend : pendingResid pow cols g i x resid =
      startResid cols i resid +
        (encodeTmp pow g x - (toUint8 (encodeTmp pow g x + 0.5) : K)) := rfl
  refine ⟨?_, hdec, hinc, ?_, ?_⟩
  · unfold encodeStep
    simp only []
    split_ifs with h1 h2
    · simp only []
      norm_num at hle hlt hr h1 ⊢
      constructor <;> linarith [hr.1, hr.2, h1.1]
    · simp only []
      norm_num at hle hlt hr h2 ⊢
      constructor <;> linarith [hr.1, hr.2]
    · simp only []
      have h3 : ¬ pendingResid pow cols g i x resid > 0.5 := fun hp => h1 ⟨hp, hinc hp⟩
      exact ⟨not_lt.1 h2, not_lt.1 h3⟩
  · unfold encodeStep
    simp only []
    split_ifs with h1 h2
    · exact Nat.le_of_lt_succ (Nat.mod_lt _ (by decide))
    · exact Nat.le_of_lt_succ (Nat.mod_lt _ (by decide))
    · exact hb
  · unfold encodeStep
    simp only []
    split_ifs with h1 h2
    · have hm : (toUint8 (encodeTmp pow g x + 0.5) + 1) % 256 =
          toUint8 (encodeTmp pow g x + 0.5) + 1 := Nat.mod_eq_of_lt (by omega)
      simp only [hm, hpend]
      push_cast
      ring
    · have h1' := hdec h2
      have hm : (toUint8 (encodeTmp pow g x + 0.5) + 255) % 256 =
          toUint8 (encodeTmp pow g x + 0.5) - 1 := by omega
      simp only [hm, hpend]
      rw [Nat.cast_sub h1']
      push_cast
      ring
    · exact hpend

theorem startResid_mem (cols i : Nat) (resid : K) (h : -0.5 ≤ resid ∧ resid ≤ 0.5) :
    -0.5 ≤ startResid cols i resid ∧ startResid cols i resid ≤ 0.5 := by
  unfold startResid
  split_ifs
  · constructor <;> norm_num
  · exact h

theorem encodeState_succ (pow : K → K → K) (image_ch : List K) (cols : Nat) (g : K) (i : Nat) :
    encodeState pow image_ch cols g (i + 1) =
      ((encodeStep pow cols g i (image_ch.getD i 0) (encodeState pow image_ch cols g i).1).1,
        (encodeState pow image_ch cols g i).2 ++
          [(encodeStep pow cols g i (image_ch.getD i 0)
            (encodeState pow image_ch cols g i).1).2]) := rfl

theorem encodeState_resid (pow : K → K → K) (image_ch : List K) (cols : Nat) (g : K) (i : Nat) :
    -0.5 ≤ (encodeState pow image_ch cols g i).1 ∧
      (encodeState pow image_ch cols g i).1 ≤ 0.5 := by
  induction i with
  | zero =>
    show (-0.5 : K) ≤ 0 ∧ (0 : K) ≤ 0.5
    constructor <;> norm_num
  | succ i ih =>
    rw [encodeState_succ]
    exact (encodeStep_spec pow cols g i _ _ (startResid_mem cols i _ ih)).1

theorem encodeState_length (pow : K → K → K) (image_ch : List K) (cols : Nat) (g : K)
    (n : Nat) : (encodeState pow image_ch cols g n).2.length = n := by
  induction n with
  | zero => rfl
  | succ n ih => rw [encodeState_succ]; simp [ih]

theorem encodeState_getD (pow : K → K → K) (image_ch : List K) (cols : Nat) (g : K)
    (n k : Nat) (hk : k < n) :
    (encodeState pow image_ch cols g n).2.getD k 0 =
      (encodeStep pow cols g k (image_ch.getD k 0) (encodeState pow image_ch cols g k).1).2 := by
  induction n with
  | zero => exact absurd hk (Nat.not_lt_zero k)
  | succ n ih =>
    rw [encodeState_succ]
    simp only []
    rcases Nat.lt_or_ge k n with hlt | hge
    · rw [List.getD_append _ _ _ _ (by rw [encodeState_length]; exact hlt)]
      exact ih hlt
    · have hkn : k = n := by omega
      subst hkn
      rw [List.getD_append_right _ _ _ _ (by rw [encodeState_length])]
      simp [encodeState_length]

/-- Within a row the residual is the sum of the differences between the values `tmp` and the
bytes stored. -/
theorem encodeState_row (pow : K → K → K) (image_ch : List K) (cols : Nat) (g : K)
    (rr p : Nat) (hp : p + 1 ≤ cols) :
    (encodeState pow image_ch cols g (rr * cols + (p + 1))).1 =
      ∑ j ∈ range (p + 1),
        (encodeTmp pow g (image_ch.getD (rr * cols + j) 0) -
          ((encodeStep pow cols g (rr * cols + j) (image_ch.getD (rr * cols + j) 0)
            (encodeState pow image_ch cols g (rr * cols + j)).1).2 : K)) := by
  induction p with
  | zero =>
    have hres := encodeState_resid pow image_ch cols g (rr * cols)
    have hs := (encodeStep_spec pow cols g (rr * cols) (image_ch.getD (rr * cols) 0) _
      (startResid_mem cols (rr * cols) _ hres)).2.2.2.2
    have h0 : startResid cols (rr * cols) (encodeState pow image_ch cols g (rr * cols)).1 = 0 := by
      unfold startResid
      rw [if_pos (Nat.mul_mod_left rr cols)]
    rw [h0, zero_add] at hs
    show (encodeState pow image_ch cols g (rr * cols + 0 + 1)).1 = _
    rw [encodeState_succ]
    simp only [Nat.add_zero, Nat.zero_add, Finset.sum_range_one]
    exact hs
  | succ p ih =>
    have hres := encodeState_resid pow image_ch cols g (rr * cols + (p + 1))
    have hs := (encodeStep_spec pow cols g (rr * cols + (p + 1))
      (image_ch.getD (rr * cols + (p + 1)) 0) _
      (startResid_mem cols (rr * cols + (p + 1)) _ hres)).2.2.2.2
    have hmod : (rr * cols + (p + 1)) % cols ≠ 0 := by
      rw [Nat.add_comm, Nat.add_mul_mod_self_right, Nat.mod_eq_of_lt (by omega)]
      omega
    have h0 : startResid cols (rr * cols + (p + 1))
        (encodeState pow image_ch cols g (rr * cols + (p + 1))).1 =
        (encodeState pow image_ch cols g (rr * cols + (p + 1))).1 := by
      unfold startResid
      rw [if_neg hmod]
    rw [h0] at hs
    show (encodeState pow image_ch cols g (rr * cols + (p + 1) + 1)).1 = _
    rw [encodeState_succ, Finset.sum_range_succ _ (p + 1), ← ih (by omega)]
    exact hs

end Encoder

section ClaimsOutput
open Finset

/-- C12 (the code at the failing input): with `-F 16` the output is written with 8 bits per
sample and with `-F 8` with 16, whatever the input; with no `-F` an 8-bit input is written
as 8 bits and a 16-bit input as 16 bits. -/
theorem mainOutputBits_force :
    (∀ from_16bits, mainOutputBits 16 from_16bits = 8) ∧
      (∀ from_16bits, mainOutputBits 8 from_16bits = 16) ∧
      mainOutputBits 0 false = 8 ∧ mainOutputBits 0 true = 16 := by
  refine ⟨?_, ?_, rfl, rfl⟩
  · intro b; cases b <;> rfl
  · intro b; cases b <;> rfl

/-- C13 (the code at the failing input): a first image of 2 rows and 3 columns and an
additional image of 3 rows and 2 columns differ in row and column count, yet the size check
passes and the two are averaged by flat index. -/
theorem averageImages_shape_mismatch :
    (averageImages (ArrayRGB.const 2 3 300 (1 : ℚ)) [ArrayRGB.const 3 2 300 (0 : ℚ)]).toOption.map
        (fun out => (out.nr, out.nc, out.v 0)) =
      some (2, 3, [1 / 2, 1 / 2, 1 / 2, 1 / 2, 1 / 2, 1 / 2]) ∧
    (ArrayRGB.const 2 3 300 (1 : ℚ)).nr ≠ (ArrayRGB.const 3 2 300 (0 : ℚ)).nr ∧
    (ArrayRGB.const 2 3 300 (1 : ℚ)).nc ≠ (ArrayRGB.const 3 2 300 (0 : ℚ)).nc := by
  refine ⟨by decide!, by decide, by decide⟩

end ClaimsOutput

section ClaimsEncoder
variable {K : Type} [LinearOrderedField K] [FloorRing K]
open Finset

/-- C15: in `one_channel_to_8`, for every channel of non-negative samples and `cols ≥ 1`
(in exact arithmetic, for a `pow` that is non-negative on non-negative samples), the
running residual lies in `[-0.5, 0.5]` after each pixel; the residual is below `-0.5`, the
condition of the decrement branch, only for a byte `tmpr ≥ 1`, and above `0.5` only for a
byte `tmpr < 255`, so neither `tmpr--` nor `tmpr++` wraps and every stored byte is at most
255; within each row the sum of the stored bytes over any prefix differs from the sum of the
ideal values `min(255, 255 * pow(x, inv_gamma))` by at most 0.5. -/
theorem one_channel_to_8_residual (pow : K → K → K) (image_ch : List K) (cols : Nat)
    (inv_gamma : K) (_hcols : 1 ≤ cols) (hnn : ∀ x ∈ image_ch, 0 ≤ x)
    (hpow : ∀ x, 0 ≤ x → 0 ≤ pow x inv_gamma) :
    (one_channel_to_8 pow image_ch cols inv_gamma).length = image_ch.length ∧
    (∀ i, i < image_ch.length →
      (-0.5 ≤ (encodeState pow image_ch cols inv_gamma (i + 1)).1 ∧
        (encodeState pow image_ch cols inv_gamma (i + 1)).1 ≤ 0.5) ∧
      (pendingResid pow cols inv_gamma i (image_ch.getD i 0)
          (encodeState pow image_ch cols inv_gamma i).1 < -0.5 →
        1 ≤ toUint8 (encodeTmp pow inv_gamma (image_ch.getD i 0) + 0.5)) ∧
      (pendingResid pow cols inv_gamma i (image_ch.getD i 0)
          (encodeState pow image_ch cols inv_gamma i).1 > 0.5 →
        toUint8 (encodeTmp pow inv_gamma (image_ch.getD i 0) + 0.5) < 255) ∧
      (one_channel_to_8 pow image_ch cols inv_gamma).getD i 0 ≤ 255) ∧
    (∀ rr p, 1 ≤ p → p ≤ cols → rr * cols + p ≤ image_ch.length →
      |∑ j ∈ range p, (((one_channel_to_8 pow image_ch cols inv_gamma).getD (rr * cols + j) 0 :
            Nat) : K) -
          ∑ j ∈ range p, min 255 (255 * pow (image_ch.getD (rr * cols + j) 0) inv_gamma)| ≤
        0.5) := by
  have hbyte : ∀ k, k < image_ch.length →
      (one_channel_to_8 pow image_ch cols inv_gamma).getD k 0 =
        (encodeStep pow cols inv_gamma k (image_ch.getD k 0)
          (encodeState pow image_ch cols inv_gamma k).1).2 :=
    fun k hk => encodeState_getD pow image_ch cols inv_gamma image_ch.length k hk
  refine ⟨encodeState_length pow image_ch cols inv_gamma image_ch.length, ?_, ?_⟩
  · intro i hi
    have hres := encodeState_resid pow image_ch cols inv_gamma i
    obtain ⟨_, s2, s3, s4, _⟩ := encodeStep_spec pow cols inv_gamma i (image_ch.getD i 0) _
      (startResid_mem cols i _ hres)
    refine ⟨encodeState_resid pow image_ch cols inv_gamma (i + 1), s2, s3, ?_⟩
    rw [hbyte i hi]
    exact s4
  · intro rr p hp1 hp2 hlen
    obtain ⟨q, rfl⟩ : ∃ q, p = q + 1 := ⟨p - 1, by omega⟩
    have hrow := encodeState_row pow image_ch cols inv_gamma rr q hp2
    have hres := encodeState_resid pow image_ch cols inv_gamma (rr * cols + (q + 1))
    have hsum : ∑ j ∈ range (q + 1),
          (((one_channel_to_8 pow image_ch cols inv_gamma).getD (rr * cols + j) 0 : Nat) : K) -
        ∑ j ∈ range (q + 1), min 255 (255 * pow (image_ch.getD (rr * cols + j) 0) inv_gamma) =
        -(encodeState pow image_ch cols inv_gamma (rr * cols + (q + 1))).1 := by
      rw [hrow, ← Finset.sum_sub_distrib, ← Finset.sum_neg_distrib]
      apply Finset.sum_congr rfl
      intro j hj
      have hj2 : j < q + 1 := Finset.mem_range.1 hj
      have hk : rr * cols + j < image_ch.length := by omega
      have hx : 0 ≤ image_ch.getD (rr * cols + j) 0 := by
        rw [List.getD_eq_getElem _ _ hk]
        exact hnn _ (List.getElem_mem _)
      rw [hbyte _ hk, encodeTmp_eq_min pow inv_gamma _ (hpow _ hx)]
      ring
    rw [hsum, abs_neg, abs_le]
    exact hres

/-- Witness of C15: the row `[0.3, 0.5, 1]` with `cols = 3`, `inv_gamma = 1` and the power
function `x ^ 1 = x`. -/
theorem one_channel_to_8_residual_witness :
    (one_channel_to_8 (fun x _ => x) [(0.3 : ℚ), 0.5, 1] 3 1).length = [(0.3 : ℚ), 0.5, 1].length ∧
    (∀ i, i < [(0.3 : ℚ), 0.5, 1].length →
      (-0.5 ≤ (encodeState (fun x _ => x) [(0.3 : ℚ), 0.5, 1] 3 1 (i + 1)).1 ∧
        (encodeState (fun x _ => x) [(0.3 : ℚ), 0.5, 1] 3 1 (i + 1)).1 ≤ 0.5) ∧
      (pendingResid (fun x _ => x) 3 1 i ([(0.3 : ℚ), 0.5, 1].getD i 0)
          (encodeState (fun x _ => x) [(0.3 : ℚ), 0.5, 1] 3 1 i).1 < -0.5 →
        1 ≤ toUint8 (encodeTmp (fun x _ => x) 1 ([(0.3 : ℚ), 0.5, 1].getD i 0) + 0.5)) ∧
      (pendingResid (fun x _ => x) 3 1 i ([(0.3 : ℚ), 0.5, 1].getD i 0)
          (encodeState (fun x _ => x) [(0.3 : ℚ), 0.5, 1] 3 1 i).1 > 0.5 →
        toUint8 (encodeTmp (fun x _ => x) 1 ([(0.3 : ℚ), 0.5, 1].getD i 0) + 0.5) < 255) ∧
      (one_channel_to_8 (fun x _ => x) [(0.3 : ℚ), 0.5, 1] 3 1).getD i 0 ≤ 255) ∧
    (∀ rr p, 1 ≤ p → p ≤ 3 → rr * 3 + p ≤ [(0.3 : ℚ), 0.5, 1].length →
      |∑ j ∈ range p,
            (((one_channel_to_8 (fun x _ => x) [(0.3 : ℚ), 0.5, 1] 3 1).getD (rr * 3 + j) 0 :
              Nat) : ℚ) -
          ∑ j ∈ range p, min 255 (255 * ([(0.3 : ℚ), 0.5, 1].getD (rr * 3 + j) 0))| ≤ 0.5) :=
  one_channel_to_8_residual (fun x _ => x) [(0.3 : ℚ), 0.5, 1] 3 1 (by decide)
    (by intro x hx; simp only [List.mem_cons, List.mem_singleton, List.not_mem_nil, or_false] at hx
        rcases hx with rfl | rfl | rfl <;> norm_num)
    (fun _ hx => hx)

end ClaimsEncoder

section Padding
set_option linter.unusedSectionVars false
variable {K : Type} [LinearOrderedField K]

end Padding

section EndToEnd
open Finset

end EndToEnd

section ClaimsEndToEnd
open Finset

end ClaimsEndToEnd

end ScannerReflFix
